import Mathlib

/-!
Verification development for the entity-resolution / text-chunking utilities
of the `kg_from_unstructured_data` repository.

Python strings are modeled as `List Char` (a Python `str` is a sequence of
code points; `len`, slicing and concatenation translate directly).  Case
folding and whitespace predicates are modeled at ASCII fidelity, which is the
character range the repository's inputs (names, honorifics, punctuation) use.
Python floats produced by `difflib.SequenceMatcher.ratio` (`2.0 * M / T`) are
modeled as exact rationals `2 * M / T : ℚ`.
-/

set_option maxHeartbeats 1000000

abbrev Str := List Char

/-- Python `str.isspace` characters at ASCII fidelity
(space, tab, newline, carriage return, vertical tab, form feed). -/
def pyIsSpace (c : Char) : Bool :=
  c = ' ' ∨ c = '\t' ∨ c = '\n' ∨ c = '\r' ∨ c = '\x0b' ∨ c = '\x0c'

/-- Python `str.strip()`: remove leading and trailing whitespace. -/
def pyStrip (s : Str) : Str :=
  ((s.dropWhile pyIsSpace).reverse.dropWhile pyIsSpace).reverse

/-- Python `str.lower()` at ASCII fidelity. -/
def pyLower (s : Str) : Str :=
  s.map Char.toLower

/-- Python `str.split()` (no separator): split on whitespace runs,
discarding empty fragments. -/
def pySplitWs (s : Str) : List Str :=
  (s.splitOnP pyIsSpace).filter (fun w => w ≠ [])

/-- Python `" ".join(words)`. -/
def pyJoinSpace (ws : List Str) : Str :=
  List.intercalate [' '] ws

/-- Python `str.rstrip(".")`: remove trailing dots. -/
def pyRstripDot (s : Str) : Str :=
  (s.reverse.dropWhile (fun c => c = '.')).reverse

/-! ## difflib.SequenceMatcher (CPython, `isjunk=None`, `autojunk=True`)

The matcher is embedded at the level needed by `ratio()`: the `b2j` index
(including the autojunk purge of popular elements), `find_longest_match`
(dynamic-programming scan plus the two non-junk extension loops; with
`isjunk=None` the junk set `bjunk` is empty, so the two junk-gated extension
loops of the original never execute and are omitted), and the total matched
size accumulated by `get_matching_blocks` (the queue there visits exactly the
two sub-regions flanking each longest match, so the total is the recursive
sum computed by `smTotal`). -/

/-- Index of `b`: for each element, the ascending list of positions where it
occurs (CPython builds it by appending positions in order). -/
def b2jBase (b : Str) : List (Char × List Nat) :=
  (List.range b.length).foldl
    (fun acc i =>
      let c := b.getD i (Char.ofNat 0)
      match acc.lookup c with
      | some js => acc.map (fun p => if p.1 = c then (c, js ++ [i]) else p)
      | none => acc ++ [(c, [i])])
    []

/-- The `b2j` index after the autojunk purge: for `len(b) >= 200`, elements
occurring more than `len(b) // 100 + 1` times are dropped from the index. -/
def mkB2j (b : Str) : List (Char × List Nat) :=
  let base := b2jBase b
  let n := b.length
  if 200 ≤ n then base.filter (fun p => p.2.length ≤ n / 100 + 1) else base

/-- Lookup in the `b2j` index (`b2j.get(a[i], [])`). -/
def b2jGet (m : List (Char × List Nat)) (c : Char) : List Nat :=
  (m.lookup c).getD []

/-- Association lookup used for the `j2len` rows of the dynamic program. -/
def alookup (k : Nat) : List (Nat × Nat) → Option Nat
  | [] => none
  | p :: ps => if p.1 = k then some p.2 else alookup k ps

/-- One row of the `find_longest_match` dynamic program: for each candidate
position `j` of `a[i]` in `b` (already filtered to `blo ≤ j < bhi`), the new
match length is `j2len.get(j-1, 0) + 1` read from the previous row (the `-1`
index of CPython reads the default `0` when `j = 0`), and the running best
block is updated on strict improvement (which realizes the earliest-in-`a`,
then earliest-in-`b` tie-breaking). -/
def flmRow (i : Nat) (js : List Nat) (prevRow : List (Nat × Nat))
    (best : Nat × Nat × Nat) : List (Nat × Nat) × (Nat × Nat × Nat) :=
  js.foldl
    (fun acc j =>
      let kp := if j = 0 then 0 else (alookup (j - 1) prevRow).getD 0
      let k := kp + 1
      let best := if acc.2.2.2 < k then (i + 1 - k, j + 1 - k, k) else acc.2
      (acc.1 ++ [(j, k)], best))
    ([], best)

/-- The dynamic-programming scan of `find_longest_match` over
`a[alo:ahi]` × `b[blo:bhi]`. -/
def flmDP (a : Str) (b2j : List (Char × List Nat))
    (alo ahi blo bhi : Nat) : Nat × Nat × Nat :=
  ((List.range' alo (ahi - alo)).foldl
    (fun (acc : List (Nat × Nat) × (Nat × Nat × Nat)) i =>
      let js := ((b2jGet b2j (a.getD i (Char.ofNat 0))).filter
        (fun j => blo ≤ j)).takeWhile (fun j => j < bhi)
      flmRow i js acc.1 acc.2)
    ([], (alo, blo, 0))).2

/-- Backward extension of the best block (`while besti > alo and bestj > blo
and a[besti-1] == b[bestj-1]`; the `bjunk` guard is vacuous for
`isjunk=None`).  Structural recursion on `i`, which the loop decrements. -/
def extendBack (a b : Str) (alo blo : Nat) : Nat → Nat → Nat → Nat × Nat × Nat
  | 0, j, k => (0, j, k)
  | i + 1, j, k =>
    if alo < i + 1 ∧ blo < j ∧ a.getD i (Char.ofNat 0) = b.getD (j - 1) (Char.ofNat 0) then
      extendBack a b alo blo i (j - 1) (k + 1)
    else (i + 1, j, k)

/-- Forward extension of the best block (`while besti+bestsize < ahi and
bestj+bestsize < bhi and a[besti+bestsize] == b[bestj+bestsize]`); the fuel
argument is `ahi - (i + k)`, the exact number of iterations the guard still
admits, so the fuel-exhausted branch coincides with a false guard. -/
def extendFwdF (a b : Str) (ahi bhi i j : Nat) : Nat → Nat → Nat
  | 0, k => k
  | fuel + 1, k =>
    if i + k < ahi ∧ j + k < bhi ∧ a.getD (i + k) (Char.ofNat 0) = b.getD (j + k) (Char.ofNat 0) then
      extendFwdF a b ahi bhi i j fuel (k + 1)
    else k

def extendFwd (a b : Str) (ahi bhi i j k : Nat) : Nat :=
  extendFwdF a b ahi bhi i j (ahi - (i + k)) k

/-- `find_longest_match(alo, ahi, blo, bhi)`: dynamic program, then the two
extension loops (the junk-gated loops are no-ops for `isjunk=None`). -/
def flm (a b : Str) (b2j : List (Char × List Nat))
    (alo ahi blo bhi : Nat) : Nat × Nat × Nat :=
  let r := flmDP a b2j alo ahi blo bhi
  let r := extendBack a b alo blo r.1 r.2.1 r.2.2
  (r.1, r.2.1, extendFwd a b ahi bhi r.1 r.2.1 r.2.2)

lemma alookup_mem {k v : Nat} : ∀ {l : List (Nat × Nat)}, alookup k l = some v → (k, v) ∈ l := by
  intro l
  induction l with
  | nil => simp [alookup]
  | cons p ps ih =>
    simp only [alookup]
    split
    · next h =>
      intro hv; injection hv with hv
      have hp : p = (k, v) := by cases p; simp_all
      rw [hp]; exact List.mem_cons_self _ _
    · intro hv; exact List.mem_cons_of_mem _ (ih hv)

/-- Block returned by the matcher stays inside the scanned region. -/
def FlmOK (alo ahi blo bhi : Nat) (r : Nat × Nat × Nat) : Prop :=
  alo ≤ r.1 ∧ blo ≤ r.2.1 ∧ r.1 + r.2.2 ≤ ahi ∧ r.2.1 + r.2.2 ≤ bhi

lemma bestUpd_spec (alo ahi blo bhi i j k : Nat) (best : Nat × Nat × Nat)
    (hb : FlmOK alo ahi blo bhi best) (hi2 : i < ahi) (hjh : j < bhi)
    (hk1 : k + alo ≤ i + 1) (hk2 : k + blo ≤ j + 1) :
    FlmOK alo ahi blo bhi (if best.2.2 < k then (i + 1 - k, j + 1 - k, k) else best) := by
  obtain ⟨b1, b2, b3, b4⟩ := hb
  split
  · refine ⟨?_, ?_, ?_, ?_⟩ <;> dsimp only <;> omega
  · exact ⟨b1, b2, b3, b4⟩

lemma flmRow_go (alo ahi blo bhi i : Nat) (hi1 : alo ≤ i) (hi2 : i < ahi)
    (prevRow : List (Nat × Nat))
    (hprev : ∀ q ∈ prevRow, q.2 + alo ≤ i ∧ q.2 + blo ≤ q.1 + 1) :
    ∀ (js : List Nat) (acc : List (Nat × Nat) × (Nat × Nat × Nat)),
      (∀ j ∈ js, blo ≤ j ∧ j < bhi) →
      (∀ q ∈ acc.1, q.2 + alo ≤ i + 1 ∧ q.2 + blo ≤ q.1 + 1) →
      FlmOK alo ahi blo bhi acc.2 →
      (∀ q ∈ (js.foldl
        (fun acc j =>
          let kp := if j = 0 then 0 else (alookup (j - 1) prevRow).getD 0
          let k := kp + 1
          let best := if acc.2.2.2 < k then (i + 1 - k, j + 1 - k, k) else acc.2
          (acc.1 ++ [(j, k)], best)) acc).1,
          q.2 + alo ≤ i + 1 ∧ q.2 + blo ≤ q.1 + 1) ∧
      FlmOK alo ahi blo bhi (js.foldl
        (fun acc j =>
          let kp := if j = 0 then 0 else (alookup (j - 1) prevRow).getD 0
          let k := kp + 1
          let best := if acc.2.2.2 < k then (i + 1 - k, j + 1 - k, k) else acc.2
          (acc.1 ++ [(j, k)], best)) acc).2 := by
  intro js
  induction js with
  | nil => intro acc _ hrow hbest; exact ⟨hrow, hbest⟩
  | cons j js ih =>
    intro acc hjs hrow hbest
    simp only [List.foldl_cons]
    have hj := hjs j (List.mem_cons_self j js)
    have hkb : (if j = 0 then 0 else (alookup (j - 1) prevRow).getD 0) + 1 + alo ≤ i + 1 ∧
        (if j = 0 then 0 else (alookup (j - 1) prevRow).getD 0) + 1 + blo ≤ j + 1 := by
      split
      · next h => omega
      · next h =>
        cases hl : alookup (j - 1) prevRow with
        | none => simpa using ⟨by omega, by omega⟩
        | some v =>
          have hv := hprev _ (alookup_mem hl)
          simp only [Option.getD_some]
          simp only at hv
          omega
    refine ih _ (fun j' hj' => hjs j' (List.mem_cons_of_mem _ hj')) ?_ ?_
    · intro q hq
      rcases List.mem_append.mp hq with h | h
      · exact hrow q h
      · simp only [List.mem_singleton] at h
        subst h
        exact hkb
    · exact bestUpd_spec alo ahi blo bhi i j _ acc.2 hbest hi2 hj.2 hkb.1 hkb.2

lemma flmRow_spec (alo ahi blo bhi i : Nat) (hi1 : alo ≤ i) (hi2 : i < ahi)
    (prevRow : List (Nat × Nat))
    (hprev : ∀ q ∈ prevRow, q.2 + alo ≤ i ∧ q.2 + blo ≤ q.1 + 1)
    (js : List Nat) (best : Nat × Nat × Nat)
    (hjs : ∀ j ∈ js, blo ≤ j ∧ j < bhi)
    (hbest : FlmOK alo ahi blo bhi best) :
    (∀ q ∈ (flmRow i js prevRow best).1, q.2 + alo ≤ i + 1 ∧ q.2 + blo ≤ q.1 + 1) ∧
    FlmOK alo ahi blo bhi (flmRow i js prevRow best).2 := by
  have := flmRow_go alo ahi blo bhi i hi1 hi2 prevRow hprev js ([], best) hjs
    (by intro q hq; simp at hq) hbest
  simpa [flmRow] using this

lemma flmDP_go (a : Str) (b2j : List (Char × List Nat)) (alo ahi blo bhi : Nat) :
    ∀ (n s : Nat) (acc : List (Nat × Nat) × (Nat × Nat × Nat)),
      alo ≤ s → s + n ≤ ahi →
      (∀ q ∈ acc.1, q.2 + alo ≤ s ∧ q.2 + blo ≤ q.1 + 1) →
      FlmOK alo ahi blo bhi acc.2 →
      FlmOK alo ahi blo bhi (((List.range' s n).foldl
        (fun (acc : List (Nat × Nat) × (Nat × Nat × Nat)) i =>
          let js := ((b2jGet b2j (a.getD i (Char.ofNat 0))).filter
            (fun j => blo ≤ j)).takeWhile (fun j => j < bhi)
          flmRow i js acc.1 acc.2) acc).2) := by
  intro n
  induction n with
  | zero => intro s acc _ _ _ hbest; simpa using hbest
  | succ n ih =>
    intro s acc hs hsn hrow hbest
    rw [List.range'_succ, List.foldl_cons]
    have hjs : ∀ j ∈ ((b2jGet b2j (a.getD s (Char.ofNat 0))).filter
        (fun j => blo ≤ j)).takeWhile (fun j => j < bhi), blo ≤ j ∧ j < bhi := by
      intro j hj
      constructor
      · have := (List.takeWhile_sublist _).subset hj
        have := List.mem_filter.mp this
        simpa using this.2
      · simpa using List.mem_takeWhile_imp hj
    have hstep := flmRow_spec alo ahi blo bhi s hs (by omega) acc.1 hrow _ acc.2 hjs hbest
    exact ih (s + 1) _ (by omega) (by omega) hstep.1 hstep.2

lemma flmDP_spec (a : Str) (b2j : List (Char × List Nat)) (alo ahi blo bhi : Nat)
    (h1 : alo ≤ ahi) (h2 : blo ≤ bhi) :
    FlmOK alo ahi blo bhi (flmDP a b2j alo ahi blo bhi) := by
  have := flmDP_go a b2j alo ahi blo bhi (ahi - alo) alo ([], (alo, blo, 0))
    (le_refl alo) (by omega) (by simp) (by simp only [FlmOK]; omega)
  simpa [flmDP] using this

lemma extendBack_spec (a b : Str) (alo blo ahi bhi : Nat) :
    ∀ i j k, alo ≤ i → blo ≤ j → i + k ≤ ahi → j + k ≤ bhi →
    FlmOK alo ahi blo bhi (extendBack a b alo blo i j k) := by
  intro i
  induction i with
  | zero => intro j k h1 h2 h3 h4; exact ⟨h1, h2, h3, h4⟩
  | succ i IH =>
    intro j k h1 h2 h3 h4
    rw [extendBack]
    split
    · next h => exact IH (j - 1) (k + 1) (by omega) (by omega) (by omega) (by omega)
    · exact ⟨h1, h2, h3, h4⟩

lemma extendFwdF_spec (a b : Str) (ahi bhi i j : Nat) :
    ∀ fuel k, i + k ≤ ahi → j + k ≤ bhi →
    i + extendFwdF a b ahi bhi i j fuel k ≤ ahi ∧
    j + extendFwdF a b ahi bhi i j fuel k ≤ bhi := by
  intro fuel
  induction fuel with
  | zero => intro k h1 h2; exact ⟨h1, h2⟩
  | succ fuel ih =>
    intro k h1 h2
    rw [extendFwdF]
    split
    · next h => exact ih (k + 1) (by omega) (by omega)
    · exact ⟨h1, h2⟩

lemma flm_spec (a b : Str) (b2j : List (Char × List Nat)) (alo ahi blo bhi : Nat)
    (h1 : alo ≤ ahi) (h2 : blo ≤ bhi) :
    FlmOK alo ahi blo bhi (flm a b b2j alo ahi blo bhi) := by
  have hdp := flmDP_spec a b2j alo ahi blo bhi h1 h2
  obtain ⟨d1, d2, d3, d4⟩ := hdp
  set d := flmDP a b2j alo ahi blo bhi with hd
  have hback := extendBack_spec a b alo blo ahi bhi d.1 d.2.1 d.2.2 d1 d2 d3 d4
  obtain ⟨e1, e2, e3, e4⟩ := hback
  set r := extendBack a b alo blo d.1 d.2.1 d.2.2 with hr
  have hfwd := extendFwdF_spec a b ahi bhi r.1 r.2.1 (ahi - (r.1 + r.2.2)) r.2.2 e3 e4
  exact ⟨e1, e2, hfwd.1, hfwd.2⟩

/-- Total size of the matching blocks collected by `get_matching_blocks`:
each found block contributes its size plus, recursively, the totals of the
two flanking sub-regions.  The queue of CPython visits exactly these
sub-regions, so the sum agrees.  The fuel argument only makes the recursion
structural: every level strictly shrinks `(ahi - alo) + (bhi - blo)`, so the
fuel `smTotal` supplies can never run out, and regions handed to the queue
are always well-formed, so the region guard never fails on real inputs. -/
def smTotalF (a b : Str) (b2j : List (Char × List Nat)) :
    Nat → Nat → Nat → Nat → Nat → Nat
  | 0, _, _, _, _ => 0
  | fuel + 1, alo, ahi, blo, bhi =>
    if alo ≤ ahi ∧ blo ≤ bhi then
      if (flm a b b2j alo ahi blo bhi).2.2 = 0 then 0
      else
        (flm a b b2j alo ahi blo bhi).2.2
          + smTotalF a b b2j fuel alo (flm a b b2j alo ahi blo bhi).1 blo
              (flm a b b2j alo ahi blo bhi).2.1
          + smTotalF a b b2j fuel
              ((flm a b b2j alo ahi blo bhi).1 + (flm a b b2j alo ahi blo bhi).2.2) ahi
              ((flm a b b2j alo ahi blo bhi).2.1 + (flm a b b2j alo ahi blo bhi).2.2) bhi
    else 0

def smTotal (a b : Str) (b2j : List (Char × List Nat)) (alo ahi blo bhi : Nat) : Nat :=
  smTotalF a b b2j ((ahi - alo) + (bhi - blo) + 1) alo ahi blo bhi

/-- The matched total never exceeds the size of either side of the region
(for any fuel, since truncation only ever loses matches). -/
lemma smTotalF_le (a b : Str) (b2j : List (Char × List Nat)) :
    ∀ fuel alo ahi blo bhi, alo ≤ ahi → blo ≤ bhi →
    smTotalF a b b2j fuel alo ahi blo bhi ≤ ahi - alo ∧
    smTotalF a b b2j fuel alo ahi blo bhi ≤ bhi - blo := by
  intro fuel
  induction fuel with
  | zero => intro alo ahi blo bhi h1 h2; exact ⟨Nat.zero_le _, Nat.zero_le _⟩
  | succ fuel ih =>
    intro alo ahi blo bhi h1 h2
    rw [smTotalF]
    rw [if_pos ⟨h1, h2⟩]
    split
    · exact ⟨Nat.zero_le _, Nat.zero_le _⟩
    · next hk =>
      obtain ⟨s1, s2, s3, s4⟩ := flm_spec a b b2j alo ahi blo bhi h1 h2
      have hkpos : 1 ≤ (flm a b b2j alo ahi blo bhi).2.2 := Nat.one_le_iff_ne_zero.mpr hk
      have hL := ih alo (flm a b b2j alo ahi blo bhi).1 blo
        (flm a b b2j alo ahi blo bhi).2.1 (by omega) (by omega)
      have hR := ih ((flm a b b2j alo ahi blo bhi).1 + (flm a b b2j alo ahi blo bhi).2.2) ahi
        ((flm a b b2j alo ahi blo bhi).2.1 + (flm a b b2j alo ahi blo bhi).2.2) bhi
        (by omega) (by omega)
      omega

/-- The matched total never exceeds either string length. -/
lemma smTotal_le (a b : Str) (b2j : List (Char × List Nat)) :
    smTotal a b b2j 0 a.length 0 b.length ≤ a.length ∧
    smTotal a b b2j 0 a.length 0 b.length ≤ b.length := by
  have := smTotalF_le a b b2j (a.length + b.length + 1) 0 a.length 0 b.length
    (Nat.zero_le _) (Nat.zero_le _)
  simp only [smTotal, Nat.sub_zero]
  simpa using this

/-- `SequenceMatcher(None, a, b).ratio()` as an exact rational:
`2 * M / T` with `T = len(a) + len(b)`, and `1.0` when `T = 0`. -/
def ratioQ (a b : Str) : ℚ :=
  if a.length + b.length = 0 then 1
  else 2 * (smTotal a b (mkB2j b) 0 a.length 0 b.length : ℚ) / (a.length + b.length : ℚ)


/-- The comparison `sim >= sim_threshold` of `merge_entities`, decided by
cross-multiplication so that it evaluates inside the kernel (rational
division does not); `simGe_iff` proves it is exactly `t ≤ ratioQ a b`. -/
def simGe (t : ℚ) (a b : Str) : Bool :=
  if a.length + b.length = 0 then decide (t ≤ 1)
  else decide (t.num * ((a.length + b.length : Nat) : Int)
    ≤ 2 * (smTotal a b (mkB2j b) 0 a.length 0 b.length : Int) * (t.den : Int))

lemma simGe_iff (t : ℚ) (a b : Str) : simGe t a b = true ↔ t ≤ ratioQ a b := by
  unfold simGe ratioQ
  split
  · simp
  · next h =>
    rw [decide_eq_true_eq]
    have hT : (0 : ℚ) < (a.length : ℚ) + (b.length : ℚ) := by
      have := Nat.pos_of_ne_zero h
      exact_mod_cast this
    have hden : (0 : ℚ) < (t.den : ℚ) := by exact_mod_cast t.den_pos
    rw [le_div_iff₀ hT]
    conv_rhs => rw [show (t : ℚ) = (t.num : ℚ) / (t.den : ℚ) from (Rat.num_div_den t).symm]
    rw [div_mul_eq_mul_div, div_le_iff₀ hden]
    push_cast
    constructor
    · intro hle; exact_mod_cast hle
    · intro hle; exact_mod_cast hle

/-- One admissible enumeration of a Python set (first occurrences kept, in
encounter order); used to instantiate the set-union enumeration parameters
on concrete inputs. -/
def pySetList [DecidableEq α] : List α → List α
  | [] => []
  | x :: xs => x :: (pySetList xs).filter (fun y => y ≠ x)

/-- `list({*x, *y})` under the `pySetList` enumeration. -/
def unionFirst [DecidableEq α] (x y : List α) : List α :=
  pySetList (x ++ y)

/-! ## normalize_name (dedupe_entities.py / resolve_entities.py) -/

/-- The fixed honorific set of `normalize_name`. -/
def prefixTitles : List Str :=
  ["dr".toList, "mr".toList, "mrs".toList, "ms".toList, "prof".toList, "sir".toList]

/-- `normalize_name`: lowercase, strip, split on whitespace, drop a leading
honorific (with trailing dots removed), rejoin with single spaces. -/
def normalizeName (name : Str) : Str :=
  let lowered := pyStrip (pyLower name)
  let parts := pySplitWs lowered
  let parts := match parts with
    | [] => []
    | p :: ps => if prefixTitles.contains (pyRstripDot p) then ps else p :: ps
  pyJoinSpace parts


/-! ## Data model (dedupe_entities.py)

An entity record is a Python dict with required `id` and `name`, an optional
`aliases` list, and arbitrary further attributes (an insertion-ordered
mapping whose keys are distinct from the three reserved ones).  Attribute
values are modeled by `PyVal` at the granularity the merge logic inspects
(`isinstance(v, list)`).

`list({*xs, *ys})` (the union-merge of two list-valued attributes) produces
the union as a set, enumerated in CPython hash-table order, which for
strings is seed-dependent and unspecified.  The enumeration is therefore a
parameter (`σS` for alias lists, `σV` for attribute lists) of the embedding;
theorems quantify over it or constrain it by the set semantics of the union,
and concrete evaluations instantiate it with one admissible enumeration. -/

inductive PyVal where
  | vs : Str → PyVal
  | vl : List PyVal → PyVal
  | vn : Int → PyVal

mutual

def PyVal.deq : (a b : PyVal) → Decidable (a = b)
  | .vs x, .vs y =>
    match decEq x y with
    | isTrue h => isTrue (by rw [h])
    | isFalse h => isFalse (fun hc => by cases hc; exact h rfl)
  | .vl xs, .vl ys =>
    match PyVal.deqList xs ys with
    | isTrue h => isTrue (by rw [h])
    | isFalse h => isFalse (fun hc => by cases hc; exact h rfl)
  | .vn x, .vn y =>
    match decEq x y with
    | isTrue h => isTrue (by rw [h])
    | isFalse h => isFalse (fun hc => by cases hc; exact h rfl)
  | .vs _, .vl _ => isFalse nofun
  | .vs _, .vn _ => isFalse nofun
  | .vl _, .vs _ => isFalse nofun
  | .vl _, .vn _ => isFalse nofun
  | .vn _, .vs _ => isFalse nofun
  | .vn _, .vl _ => isFalse nofun

def PyVal.deqList : (xs ys : List PyVal) → Decidable (xs = ys)
  | [], [] => isTrue rfl
  | x :: xs, y :: ys =>
    match PyVal.deq x y, PyVal.deqList xs ys with
    | isTrue h1, isTrue h2 => isTrue (by rw [h1, h2])
    | isFalse h1, _ => isFalse (fun hc => by cases hc; exact h1 rfl)
    | _, isFalse h2 => isFalse (fun hc => by cases hc; exact h2 rfl)
  | [], _ :: _ => isFalse nofun
  | _ :: _, [] => isFalse nofun

end

instance : DecidableEq PyVal := PyVal.deq

structure Entity where
  id : Str
  name : Str
  aliases : Option (List Str) := none
  attrs : List (Str × PyVal) := []
deriving DecidableEq

structure Relationship where
  source : Str
  relation : Str
  target : Str
  evidence_span : Option Str := none
  attrs : List (Str × PyVal) := []
deriving DecidableEq

/-- In-place update of one list position (Python mutation of a list element). -/
def updNth : List α → Nat → (α → α) → List α
  | [], _, _ => []
  | x :: xs, 0, f => f x :: xs
  | x :: xs, n + 1, f => x :: updNth xs n f

/-- Index of the first element satisfying `p` (the scan order of the
`for canon in canonical_entities` loop with its `break`s). -/
def findIdxP (p : α → Bool) : List α → Option Nat
  | [] => none
  | x :: xs => if p x then some 0 else (findIdxP p xs).map (· + 1)

/-- The per-candidate match test of `merge_entities`: exact on normalized
name, exact on a normalized alias, or fuzzy `ratio >= sim_threshold`
(the two `break`s make the first candidate passing either test the match). -/
def entMatches (nn : Str) (t : ℚ) (c : Entity) : Bool :=
  decide (nn = normalizeName c.name) ||
  decide (nn ∈ (c.aliases.getD []).map normalizeName) ||
  simGe t nn (normalizeName c.name)

/-- Update the value stored at key `k` (Python `matched[k] = v` on a present key). -/
def assocUpd (l : List (Str × PyVal)) (k : Str) (v : PyVal) : List (Str × PyVal) :=
  l.map (fun p => if p.1 = k then (k, v) else p)

/-- The non-destructive attribute merge of `merge_entities`
(`for k, v in ent.items(): ...`) restricted to the open attributes; absent
keys are copied (appended in iteration order), list-valued collisions are
replaced by the set union (enumeration `σV`), all else is kept. -/
def mergeAttrs (σV : List PyVal → List PyVal → List PyVal)
    (m : List (Str × PyVal)) (e : List (Str × PyVal)) : List (Str × PyVal) :=
  e.foldl
    (fun acc kv =>
      match acc.lookup kv.1 with
      | none => acc ++ [kv]
      | some (PyVal.vl xs) =>
        match kv.2 with
        | PyVal.vl ys => assocUpd acc kv.1 (PyVal.vl (σV xs ys))
        | _ => acc
      | some _ => acc)
    m

/-- The matched branch of `merge_entities`: ensure `aliases`, append the
incoming raw name when it is new and differs from the candidate's raw name,
then run the attribute loop.  Of the reserved keys, `id` and `name` are
present on the candidate with non-list values (no-ops), and `aliases`
collides as list-vs-list exactly when the incoming record carries one,
turning the audit list into the set union (enumeration `σS`). -/
def applyMerge (σS : List Str → List Str → List Str)
    (σV : List PyVal → List PyVal → List PyVal) (ent : Entity) (c : Entity) : Entity :=
  let al := c.aliases.getD []
  let al := if ent.name ≠ c.name ∧ ent.name ∉ al then al ++ [ent.name] else al
  let al := match ent.aliases with
    | some l2 => σS al l2
    | none => al
  { c with aliases := some al, attrs := mergeAttrs σV c.attrs ent.attrs }

/-- The unmatched branch: a deep copy of the incoming record (value-identity
here) with `aliases` defaulted to the empty list when absent. -/
def newCanon (ent : Entity) : Entity :=
  { ent with aliases := some (ent.aliases.getD []) }

structure MState where
  canons : List Entity
  rmap : Str → Option Str

/-- One iteration of the `for ent in entities` loop of `merge_entities`
(dedupe_entities.py).  `resolved_map[ent["id"]] = matched["id"]` reads the
candidate's `id` after the in-place merge, which `applyMerge` preserves, so
it is read from the pre-merge candidate here. -/
def mergeStep (σS : List Str → List Str → List Str)
    (σV : List PyVal → List PyVal → List PyVal) (t : ℚ) (st : MState) (ent : Entity) : MState :=
  let nn := normalizeName ent.name
  match findIdxP (entMatches nn t) st.canons with
  | some p =>
    match st.canons.get? p with
    | some c =>
      { canons := updNth st.canons p (applyMerge σS σV ent),
        rmap := fun k => if k = ent.id then some c.id else st.rmap k }
    | none => st
  | none =>
    { canons := st.canons ++ [newCanon ent],
      rmap := fun k => if k = ent.id then some (newCanon ent).id else st.rmap k }

/-- `merge_entities(entities, sim_threshold)` (dedupe_entities.py):
canonical entities plus the id-resolution map. -/
def mergeEntities (σS : List Str → List Str → List Str)
    (σV : List PyVal → List PyVal → List PyVal)
    (ents : List Entity) (t : ℚ) : List Entity × (Str → Option Str) :=
  let st := ents.foldl (mergeStep σS σV t) ⟨[], fun _ => none⟩
  (st.canons, st.rmap)

/-- Endpoint rewrite of one relationship
(`resolved_map.get(rel["source"], rel["source"])`, same for target). -/
def remapOne (m : Str → Option Str) (r : Relationship) : Relationship :=
  { r with source := (m r.source).getD r.source, target := (m r.target).getD r.target }

/-- The deduplication key `(src, rel["relation"], tgt)`. -/
def relKey (r : Relationship) : Str × Str × Str :=
  (r.source, r.relation, r.target)

/-- `remap_relationships(relationships, resolved_map)` (dedupe_entities.py):
remap endpoints through the map (missing ids pass through), keep the first
record per key — a deep copy of the input record with endpoints replaced —
and drop later duplicates.  The `seen` set is used for membership only and
is modeled as a list. -/
def remapRelationships (rels : List Relationship) (m : Str → Option Str) : List Relationship :=
  (rels.foldl
    (fun (acc : List Relationship × List (Str × Str × Str)) rel =>
      let r := remapOne m rel
      if relKey r ∈ acc.2 then acc else (acc.1 ++ [r], acc.2 ++ [relKey r]))
    ([], [])).1

/-- The relationship filter of `finalize_entities_and_relationships`
(dedupe_entities.py, lines 95-101): both endpoints must be keys of the
resolution map and both mapped values must be ids of produced canonical
entities. -/
def finalizeFiltered (σS : List Str → List Str → List Str)
    (σV : List PyVal → List PyVal → List PyVal)
    (ents : List Entity) (rels : List Relationship) : List Relationship :=
  let r := mergeEntities σS σV ents (4 / 5)
  let valid := r.1.map (·.id)
  rels.filter
    (fun rel => (r.2 rel.source).isSome && (r.2 rel.target).isSome &&
      decide ((r.2 rel.source).getD [] ∈ valid) && decide ((r.2 rel.target).getD [] ∈ valid))

/-- `finalize_entities_and_relationships(entities, relationships)`
(dedupe_entities.py): deep-copies of the inputs (value-identity here) are
merged with the default threshold `0.8`, relationships are filtered, then
remapped and deduplicated. -/
def finalizeEntitiesAndRelationships (σS : List Str → List Str → List Str)
    (σV : List PyVal → List PyVal → List PyVal)
    (ents : List Entity) (rels : List Relationship) : List Entity × List Relationship :=
  let r := mergeEntities σS σV ents (4 / 5)
  (r.1, remapRelationships (finalizeFiltered σS σV ents rels) r.2)

/-! ## Heap model of the resolution pass (frame effects)

Python records are mutable dicts shared by reference.  To state what a pass
does to the caller's records, the records live in a heap (a list indexed by
allocation order); the caller's n input records occupy positions 0..n-1 and
`deepcopy` allocates a fresh position.  `merge_entities` of
dedupe_entities.py stores deep copies in `canonical_entities` and mutates
only those; `merge_entities` of utils_kg.py stores the caller's records
themselves in `canonical_entities` and mutates them in place. -/

structure HeapState where
  heap : List Entity
  canonRefs : List Nat
  rmap : Str → Option Str

/-- One loop iteration of dedupe_entities.py's `merge_entities` over the
heap: the input record at position `k` is read, matched against the records
referenced by `canonRefs` in creation order, and either a referenced copy is
merged into in place, or a fresh deep copy is allocated at the end of the
heap and referenced. -/
def dedupeMergeHeapStep (σS : List Str → List Str → List Str)
    (σV : List PyVal → List PyVal → List PyVal) (t : ℚ)
    (st : HeapState) (k : Nat) : HeapState :=
  match st.heap.get? k with
  | none => st
  | some ent =>
    let nn := normalizeName ent.name
    match findIdxP
        (fun r => match st.heap.get? r with
          | some c => entMatches nn t c
          | none => false) st.canonRefs with
    | some p =>
      match st.canonRefs.get? p with
      | some r =>
        { heap := updNth st.heap r (applyMerge σS σV ent),
          canonRefs := st.canonRefs,
          rmap := fun x => if x = ent.id then
              (match st.heap.get? r with | some c => some c.id | none => none)
            else st.rmap x }
      | none => st
    | none =>
      { heap := st.heap ++ [newCanon ent],
        canonRefs := st.canonRefs ++ [st.heap.length],
        rmap := fun x => if x = ent.id then some (newCanon ent).id else st.rmap x }

/-- dedupe_entities.py's `merge_entities` over the heap of caller records. -/
def dedupeMergeHeap (σS : List Str → List Str → List Str)
    (σV : List PyVal → List PyVal → List PyVal) (t : ℚ)
    (ents : List Entity) : HeapState :=
  (List.range ents.length).foldl (dedupeMergeHeapStep σS σV t) ⟨ents, [], fun _ => none⟩

/-- The per-candidate match test of utils_kg.py's `merge_entities`:
case-insensitive name equality, case-insensitive alias membership, or
`is_potential_alias` (`SequenceMatcher` ratio of the lowercased names
strictly above `0.85`). -/
def ukMatches (entName : Str) (c : Entity) : Bool :=
  decide (pyLower entName = pyLower c.name) ||
  decide (pyLower entName ∈ (c.aliases.getD []).map pyLower) ||
  decide ((17 : ℚ) / 20 < ratioQ (pyLower entName) (pyLower c.name))

/-- One loop iteration of utils_kg.py's `merge_entities` over the heap.
Matched candidates are caller records referenced by `canonical_entities`
(no copies), so the alias append (`matched["aliases"].append(...)`, guarded
only by raw membership — the candidate has an `aliases` key by
construction) writes into a caller record; the unmatched branch's
`ent["aliases"] = []` (when the key is absent) writes into the incoming
caller record before appending it, by reference, to `canonical_entities`. -/
def ukMergeStep (st : HeapState) (k : Nat) : HeapState :=
  match st.heap.get? k with
  | none => st
  | some ent =>
    match findIdxP
        (fun r => match st.heap.get? r with
          | some c => ukMatches ent.name c
          | none => false) st.canonRefs with
    | some p =>
      match st.canonRefs.get? p with
      | some r =>
        { heap := updNth st.heap r (fun c =>
            if ent.name ∈ c.aliases.getD [] then c
            else { c with aliases := some (c.aliases.getD [] ++ [ent.name]) }),
          canonRefs := st.canonRefs,
          rmap := fun x => if x = ent.id then
              (match st.heap.get? r with | some c => some c.id | none => none)
            else st.rmap x }
      | none => st
    | none =>
      { heap := updNth st.heap k (fun e => { e with aliases := some (e.aliases.getD []) }),
        canonRefs := st.canonRefs ++ [k],
        rmap := fun x => if x = ent.id then some ent.id else st.rmap x }

/-- utils_kg.py's `merge_entities` over the heap of caller records. -/
def ukMergeEntities (ents : List Entity) : HeapState :=
  (List.range ents.length).foldl ukMergeStep ⟨ents, [], fun _ => none⟩

/-- utils_kg.py's `remap_relationships`: endpoints are read with
`resolved_map[rel["source"]]` / `resolved_map[rel["target"]]`, so a missing
key raises `KeyError`; the whole call is modeled as `Option`, `none` being
the raised error.  Output records are freshly built dicts with
`evidence_span` defaulted to the empty string. -/
def ukRemapRelationships (rels : List Relationship) (m : Str → Option Str) :
    Option (List Relationship) :=
  (rels.foldl
    (fun (acc : Option (List Relationship × List (Str × Str × Str))) rel =>
      match acc with
      | none => none
      | some st =>
        match m rel.source, m rel.target with
        | some s, some t =>
          let key := (s, rel.relation, t)
          if key ∈ st.2 then some st
          else some (st.1 ++ [{ source := s, relation := rel.relation, target := t,
                                evidence_span := some (rel.evidence_span.getD []),
                                attrs := [] }], st.2 ++ [key])
        | _, _ => none)
    (some ([], []))).map (·.1)

/-! ## chunk_text (myutils.py) -/

/-- `re.split(r'(?<=[.!?])', text)`: cut immediately after every `.`, `!`,
`?` (the terminator stays on the left piece); the tail piece, possibly
empty, is always included. -/
def splitSentences (s : Str) : List Str :=
  let r := s.foldl
    (fun (acc : List Str × Str) c =>
      let cur := acc.2 ++ [c]
      if c = '.' ∨ c = '!' ∨ c = '?' then (acc.1 ++ [cur], []) else (acc.1, cur))
    ([], [])
  r.1 ++ [r.2]

/-- `for i in range(0, len(s), max_chars): s[i:i+max_chars]` — the hard
split of an oversized sentence into fixed-width slices.  (`chunk_text`
validates `max_chars > 0` before this can run; the `m = 0` guard only makes
the recursion total.) -/
def hardSplitF : Nat → Str → Nat → List Str
  | 0, _, _ => []
  | _ + 1, [], _ => []
  | fuel + 1, c :: rest, m =>
    if m = 0 then []
    else ((c :: rest).take m) :: hardSplitF fuel ((c :: rest).drop m) m

def hardSplit (s : Str) (m : Nat) : List Str :=
  hardSplitF s.length s m

/-- One iteration of the sentence-accumulation loop of `chunk_text`:
skip blank fragments; grow the current chunk while the joined length fits;
otherwise flush it and either hard-split an oversized fragment or restart
from the fragment. -/
def chunkStep (maxC : Nat) (acc : List Str × Str) (s0 : Str) : List Str × Str :=
  if pyStrip s0 = [] then acc
  else if acc.2.length + (pyStrip s0).length + 1 ≤ maxC then
    (acc.1, pyStrip (acc.2 ++ [' '] ++ pyStrip s0))
  else if maxC < (pyStrip s0).length then
    (acc.1 ++ (if acc.2 = [] then [] else [acc.2]) ++ hardSplit (pyStrip s0) maxC, [])
  else (acc.1 ++ (if acc.2 = [] then [] else [acc.2]), pyStrip s0)

/-- The chunks of `chunk_text` before the overlap pass (the final partial
chunk is flushed when non-empty). -/
def chunkTextPre (text : Str) (maxC : Nat) : List Str :=
  let r := (splitSentences text).foldl (chunkStep maxC) ([], [])
  r.1 ++ (if r.2 = [] then [] else [r.2])

/-- The reversed word scan picking the overlap: walk the previous chunk's
words from the end, stop as soon as the running width would exceed
`overlap`, keep the kept words in original order. -/
def takeOvGo (ov : Nat) : List Str → Nat → List Str
  | [], _ => []
  | w :: rest, cc =>
    if ov < cc + w.length + 1 then [] else takeOvGo ov rest (cc + w.length + 1) ++ [w]

/-- The whole-word overlap selected from the tail of a previous chunk. -/
def takeOverlapWords (ws : List Str) (ov : Nat) : List Str :=
  takeOvGo ov ws.reverse 0

/-- `(overlap_text + " " + c).strip()` for one chunk after the first. -/
def overlapCombine (ov : Nat) (prev c : Str) : Str :=
  pyStrip (pyJoinSpace (takeOverlapWords (pySplitWs prev) ov) ++ [' '] ++ c)

/-- The overlap pass: only when `overlap` is truthy and more than one chunk
exists; the first chunk is kept, every later chunk is prefixed with words
from the tail of the previous output chunk. -/
def applyOverlap (chunks : List Str) (ov : Nat) : List Str :=
  if ov ≠ 0 ∧ 1 < chunks.length then
    match chunks with
    | [] => []
    | c0 :: rest =>
      rest.foldl (fun acc c => acc ++ [overlapCombine ov ((acc.getLast?).getD []) c]) [c0]
  else chunks

/-- `chunk_text(text, max_chars, overlap)` (myutils.py); the type and range
guards (`max_chars > 0`, `overlap >= 0`) are hypotheses of the theorems. -/
def chunkText (text : Str) (maxC ov : Nat) : List Str :=
  applyOverlap (chunkTextPre text maxC) ov


/-! ## Shared list lemmas -/

lemma length_updNth (l : List α) (n : Nat) (f : α → α) : (updNth l n f).length = l.length := by
  induction l generalizing n with
  | nil => rfl
  | cons x xs ih => cases n with
    | zero => rfl
    | succ n => simp [updNth, ih]

lemma get?_updNth_eq (l : List α) (n : Nat) (f : α → α) :
    (updNth l n f).get? n = (l.get? n).map f := by
  induction l generalizing n with
  | nil => cases n <;> rfl
  | cons x xs ih => cases n with
    | zero => rfl
    | succ n => simpa [updNth] using ih n

lemma get?_updNth_ne (l : List α) (n m : Nat) (f : α → α) (h : m ≠ n) :
    (updNth l n f).get? m = l.get? m := by
  induction l generalizing n m with
  | nil => cases n <;> rfl
  | cons x xs ih =>
    cases n with
    | zero => cases m with
      | zero => exact absurd rfl h
      | succ m => rfl
    | succ n => cases m with
      | zero => rfl
      | succ m => simpa [updNth] using ih n m (by omega)

lemma mem_updNth (l : List α) (n : Nat) (f : α → α) (x : α) (hx : x ∈ updNth l n f) :
    x ∈ l ∨ ∃ y, l.get? n = some y ∧ x = f y := by
  induction l generalizing n with
  | nil => simp [updNth] at hx
  | cons z zs ih =>
    cases n with
    | zero =>
      rcases List.mem_cons.mp hx with h | h
      · exact Or.inr ⟨z, rfl, h⟩
      · exact Or.inl (List.mem_cons_of_mem _ h)
    | succ n =>
      rcases List.mem_cons.mp hx with h | h
      · exact Or.inl (h ▸ List.mem_cons_self _ _)
      · rcases ih n h with h | ⟨y, hy, hxy⟩
        · exact Or.inl (List.mem_cons_of_mem _ h)
        · exact Or.inr ⟨y, hy, hxy⟩

lemma findIdxP_none_iff (p : α → Bool) (l : List α) :
    findIdxP p l = none ↔ ∀ x ∈ l, p x = false := by
  induction l with
  | nil => simp [findIdxP]
  | cons x xs ih =>
    simp only [findIdxP]
    split
    · next h =>
      constructor
      · intro hc; cases hc
      · intro hall; exact absurd (hall x (List.mem_cons_self _ _)) (by simp [h])
    · next h =>
      rw [Option.map_eq_none', ih]
      constructor
      · intro hall y hy
        rcases List.mem_cons.mp hy with hy | hy
        · rw [hy]; exact Bool.eq_false_iff.mpr h
        · exact hall y hy
      · intro hall y hy; exact hall y (List.mem_cons_of_mem _ hy)

lemma findIdxP_some_get (p : α → Bool) (l : List α) (n : Nat)
    (h : findIdxP p l = some n) : ∃ x, l.get? n = some x ∧ p x = true := by
  induction l generalizing n with
  | nil => simp [findIdxP] at h
  | cons x xs ih =>
    simp only [findIdxP] at h
    split at h
    · next hp => cases h; exact ⟨x, rfl, hp⟩
    · next hp =>
      cases hfx : findIdxP p xs with
      | none => rw [hfx] at h; simp at h
      | some m =>
        rw [hfx] at h
        simp at h
        obtain ⟨y, hy, hpy⟩ := ih m hfx
        exact ⟨y, by rw [← h]; simpa using hy, hpy⟩

lemma findIdxP_some_earlier (p : α → Bool) (l : List α) (n : Nat)
    (h : findIdxP p l = some n) :
    ∀ q < n, ∀ y, l.get? q = some y → p y = false := by
  induction l generalizing n with
  | nil => simp [findIdxP] at h
  | cons x xs ih =>
    simp only [findIdxP] at h
    split at h
    · next hp =>
      cases h
      intro q hq y hy
      omega
    · next hp =>
      cases hfx : findIdxP p xs with
      | none => rw [hfx] at h; simp at h
      | some m =>
        rw [hfx] at h
        simp only [Option.map_some', Option.some.injEq] at h
        intro q hq y hy
        cases q with
        | zero =>
          simp only [List.get?_cons_zero, Option.some.injEq] at hy
          rw [← hy]
          exact Bool.eq_false_iff.mpr hp
        | succ q =>
          simp only [List.get?_cons_succ] at hy
          exact ih m hfx q (by omega) y hy

lemma findIdxP_eq_some_of (p : α → Bool) (l : List α) (n : Nat) (x : α)
    (hget : l.get? n = some x) (hp : p x = true)
    (hearlier : ∀ q < n, ∀ y, l.get? q = some y → p y = false) :
    findIdxP p l = some n := by
  induction l generalizing n with
  | nil => simp at hget
  | cons z zs ih =>
    cases n with
    | zero =>
      simp at hget
      simp [findIdxP, hget ▸ hp]
    | succ n =>
      have hz : p z = false := hearlier 0 (by omega) z rfl
      simp only [findIdxP, hz]
      simp only [Bool.false_eq_true, if_false]
      rw [ih n (by simpa using hget)
        (fun q hq y hy => hearlier (q + 1) (by omega) y (by simpa using hy))]
      rfl

lemma findIdxP_some_lt (p : α → Bool) (l : List α) (n : Nat)
    (h : findIdxP p l = some n) : n < l.length := by
  obtain ⟨x, hx, _⟩ := findIdxP_some_get p l n h
  exact List.get?_eq_some.mp hx |>.1

lemma findIdxP_append_of_some (p : α → Bool) (l l2 : List α) (n : Nat)
    (h : findIdxP p l = some n) : findIdxP p (l ++ l2) = some n := by
  induction l generalizing n with
  | nil => simp [findIdxP] at h
  | cons x xs ih =>
    simp only [findIdxP, List.cons_append] at h ⊢
    split at h
    · next hp => rw [if_pos hp]; exact h
    · next hp =>
      rw [if_neg hp]
      cases hfx : findIdxP p xs with
      | none => rw [hfx] at h; simp at h
      | some m =>
        rw [hfx] at h
        simp only [Option.map_some', Option.some.injEq] at h
        simp only [List.append_eq]
        rw [ih m hfx]
        simp [h]

lemma findIdxP_append_singleton (p : α → Bool) (l : List α) (x : α)
    (h : findIdxP p l = none) :
    findIdxP p (l ++ [x]) = if p x then some l.length else none := by
  induction l with
  | nil => simp [findIdxP]
  | cons z zs ih =>
    simp only [findIdxP, List.cons_append] at h ⊢
    split at h
    · next hp => simp at h
    · next hp =>
      rw [if_neg hp]
      cases hfz : findIdxP p zs with
      | none =>
        simp only [List.append_eq]
        rw [ih hfz]
        split <;> simp
      | some m => rw [hfz] at h; simp at h

/-! ## Claim C2 — similarity symmetry -/

/-- C2 (counterexample): the similarity score used for fuzzy matching is NOT
symmetric.  `SequenceMatcher(None, "ab", "bacb").ratio()` is `2/3` (the
matcher finds both characters of `"ab"`), while
`SequenceMatcher(None, "bacb", "ab").ratio()` is `1/3`: the greedy
first-longest-match rule picks the block `("b", index 0 of "bacb", index 1
of "ab")`, whose flanking regions admit no further match.  Both strings are
far below the autojunk limit, so this is the plain algorithm. -/
theorem ratioQ_not_symmetric_cx :
    ratioQ "ab".toList "bacb".toList ≠ ratioQ "bacb".toList "ab".toList := by
  have h1 : smTotal "ab".toList "bacb".toList (mkB2j "bacb".toList)
      0 ("ab".toList.length) 0 ("bacb".toList.length) = 2 := by decide
  have h2 : smTotal "bacb".toList "ab".toList (mkB2j "ab".toList)
      0 ("bacb".toList.length) 0 ("ab".toList.length) = 1 := by decide
  have hla : ("ab".toList.length : ℚ) = 2 := by norm_num
  have hlb : ("bacb".toList.length : ℚ) = 4 := by norm_num
  simp only [ratioQ, h1, h2]
  norm_num [hla, hlb]

/-- C2 (amended): the score `2 * M / T` always lies in `[0, 1]` — the
matched total `M` never exceeds either length, so `2 * M ≤ T` — but
symmetry `similarity(a,b) = similarity(b,a)` does not hold in general
(see `ratioQ_not_symmetric_cx`). -/
theorem ratioQ_bounded (a b : Str) : 0 ≤ ratioQ a b ∧ ratioQ a b ≤ 1 := by
  unfold ratioQ
  split
  · norm_num
  · next hT =>
    have hM := smTotal_le a b (mkB2j b)
    have hTpos : (0 : ℚ) < (a.length : ℚ) + (b.length : ℚ) := by
      have := Nat.pos_of_ne_zero hT
      exact_mod_cast this
    constructor
    · apply div_nonneg _ (le_of_lt hTpos)
      positivity
    · rw [div_le_one hTpos]
      have h2M : 2 * smTotal a b (mkB2j b) 0 a.length 0 b.length ≤ a.length + b.length := by
        omega
      calc 2 * (smTotal a b (mkB2j b) 0 a.length 0 b.length : ℚ)
          = ((2 * smTotal a b (mkB2j b) 0 a.length 0 b.length : Nat) : ℚ) := by push_cast; ring
        _ ≤ ((a.length + b.length : Nat) : ℚ) := by exact_mod_cast h2M
        _ = (a.length : ℚ) + (b.length : ℚ) := by push_cast; ring

/-! ## Claim C3 — valid-only relationship filtering -/

lemma validId_iff (canons : List Entity) (o : Option Str) :
    (o.isSome = true ∧ o.getD [] ∈ canons.map (fun e => e.id)) ↔
    ∃ c ∈ canons, o = some c.id := by
  cases o with
  | none => simp
  | some v =>
    simp only [Option.isSome_some, Option.getD_some, true_and, List.mem_map,
      Option.some.injEq]
    constructor
    · rintro ⟨c, hc, hcv⟩; exact ⟨c, hc, hcv.symm⟩
    · rintro ⟨c, hc, hcv⟩; exact ⟨c, hc, hcv.symm⟩

/-- C3 (confirmed): `finalize_entities_and_relationships` retains a
relationship exactly when both endpoints are keys of the resolution map AND
each endpoint's mapped value is the id of one of the canonical entities
actually produced — all four conditions, as in dedupe_entities.py lines
95-101. -/
theorem finalizeFiltered_mem_iff
    (σS : List Str → List Str → List Str) (σV : List PyVal → List PyVal → List PyVal)
    (ents : List Entity) (rels : List Relationship) (r : Relationship) :
    r ∈ finalizeFiltered σS σV ents rels ↔
      r ∈ rels ∧
      ((mergeEntities σS σV ents (4 / 5)).2 r.source).isSome = true ∧
      ((mergeEntities σS σV ents (4 / 5)).2 r.target).isSome = true ∧
      (∃ c ∈ (mergeEntities σS σV ents (4 / 5)).1,
        (mergeEntities σS σV ents (4 / 5)).2 r.source = some c.id) ∧
      (∃ c ∈ (mergeEntities σS σV ents (4 / 5)).1,
        (mergeEntities σS σV ents (4 / 5)).2 r.target = some c.id) := by
  unfold finalizeFiltered
  rw [List.mem_filter]
  simp only [Bool.and_eq_true, decide_eq_true_eq]
  constructor
  · rintro ⟨hmem, ⟨⟨hs, ht⟩, hvs⟩, hvt⟩
    refine ⟨hmem, hs, ht, ?_, ?_⟩
    · exact (validId_iff _ _).mp ⟨hs, hvs⟩
    · exact (validId_iff _ _).mp ⟨ht, hvt⟩
  · rintro ⟨hmem, hs, ht, hvs, hvt⟩
    exact ⟨hmem, ⟨⟨hs, ht⟩, ((validId_iff _ _).mpr hvs).2⟩, ((validId_iff _ _).mpr hvt).2⟩

/-! ## Claims C6/C7 — relationship remapping -/

lemma remap_go (m : Str → Option Str) :
    ∀ (rels : List Relationship) (out : List Relationship),
      (out.map relKey).Nodup →
      let res := rels.foldl
        (fun (acc : List Relationship × List (Str × Str × Str)) rel =>
          let r := remapOne m rel
          if relKey r ∈ acc.2 then acc else (acc.1 ++ [r], acc.2 ++ [relKey r]))
        (out, out.map relKey)
      (res.1.map relKey).Nodup ∧
      (∃ added, res.1 = out ++ added ∧ added.Sublist (rels.map (remapOne m))) ∧
      (∀ k, k ∈ res.1.map relKey ↔
        k ∈ out.map relKey ∨ k ∈ (rels.map (remapOne m)).map relKey) ∧
      (∀ r ∈ res.1,
        r ∈ out ∨ (rels.map (remapOne m)).find? (fun x => decide (relKey x = relKey r)) = some r) := by
  intro rels
  induction rels with
  | nil =>
    intro out hnd
    exact ⟨hnd, ⟨[], by simp, List.nil_sublist _⟩, by simp, fun r hr => Or.inl hr⟩
  | cons rel rest ih =>
    intro out hnd
    simp only [List.foldl_cons]
    by_cases hin : relKey (remapOne m rel) ∈ out.map relKey
    · rw [if_pos hin]
      obtain ⟨h2, ⟨added, hadd, hsub⟩, h4, h5⟩ := ih out hnd
      have hdisj : ∀ k ∈ out.map relKey, k ∉ added.map relKey := by
        have := h2
        rw [hadd, List.map_append] at this
        exact fun k hk hk2 => List.disjoint_of_nodup_append this hk hk2
      refine ⟨h2, ⟨added, hadd, hsub.cons _⟩, ?_, ?_⟩
      · intro k
        rw [h4 k]
        simp only [List.map_cons, List.mem_cons]
        constructor
        · rintro (hk | hk)
          · exact Or.inl hk
          · exact Or.inr (Or.inr hk)
        · rintro (hk | hk | hk)
          · exact Or.inl hk
          · exact Or.inl (hk ▸ hin)
          · exact Or.inr hk
      · intro r hr
        have hr2 := hr
        rw [hadd] at hr2
        rcases List.mem_append.mp hr2 with hro | hradd
        · exact Or.inl hro
        · right
          rcases h5 r hr with hro | hfind
          · exact absurd (List.mem_map_of_mem relKey hradd)
              (hdisj _ (List.mem_map_of_mem relKey hro))
          · have hne : ¬ (decide (relKey (remapOne m rel) = relKey r) = true) := by
              simp only [decide_eq_true_eq]
              intro hkeq
              exact hdisj _ (hkeq ▸ hin) (List.mem_map_of_mem relKey hradd)
            simp only [List.map_cons]
            rw [@List.find?_cons_of_neg _ (fun x => decide (relKey x = relKey r))
              (remapOne m rel) (List.map (remapOne m) rest) hne]
            exact hfind
    · rw [if_neg hin]
      have hmap : out.map relKey ++ [relKey (remapOne m rel)]
          = (out ++ [remapOne m rel]).map relKey := by simp
      rw [hmap]
      have hnd2 : ((out ++ [remapOne m rel]).map relKey).Nodup := by
        rw [List.map_append]
        refine List.Nodup.append hnd (List.nodup_singleton _) ?_
        intro k hk hk2
        simp only [List.map_cons, List.map_nil, List.mem_singleton] at hk2
        exact hin (hk2 ▸ hk)
      obtain ⟨h2, ⟨added, hadd, hsub⟩, h4, h5⟩ := ih (out ++ [remapOne m rel]) hnd2
      have hdisj : ∀ k ∈ (out ++ [remapOne m rel]).map relKey, k ∉ added.map relKey := by
        have := h2
        rw [hadd, List.map_append] at this
        exact fun k hk hk2 => List.disjoint_of_nodup_append this hk hk2
      refine ⟨h2, ⟨remapOne m rel :: added, by rw [hadd]; simp, ?_⟩, ?_, ?_⟩
      · simpa using hsub.cons₂ (remapOne m rel)
      · intro k
        rw [h4 k]
        simp only [List.map_append, List.map_cons, List.map_nil, List.mem_append,
          List.mem_singleton, List.mem_cons]
        tauto
      · intro r hr
        rcases h5 r hr with hro | hfind
        · rcases List.mem_append.mp hro with hro | hro
          · exact Or.inl hro
          · simp only [List.mem_singleton] at hro
            right
            simp only [List.map_cons]
            rw [@List.find?_cons_of_pos _ (fun x => decide (relKey x = relKey r))
              (remapOne m rel) (List.map (remapOne m) rest) (by simp [hro])]
            rw [hro]
        · have hr2 := hr
          rw [hadd] at hr2
          rcases List.mem_append.mp hr2 with hro | hradd
          · rcases List.mem_append.mp hro with hro | hro
            · exact Or.inl hro
            · simp only [List.mem_singleton] at hro
              right
              simp only [List.map_cons]
              rw [@List.find?_cons_of_pos _ (fun x => decide (relKey x = relKey r))
                (remapOne m rel) (List.map (remapOne m) rest) (by simp [hro])]
              rw [hro]
          · right
            have hne : ¬ (decide (relKey (remapOne m rel) = relKey r) = true) := by
              simp only [decide_eq_true_eq]
              intro hkeq
              refine hdisj _ ?_ (List.mem_map_of_mem relKey hradd)
              rw [← hkeq]
              simp
            simp only [List.map_cons]
            rw [@List.find?_cons_of_neg _ (fun x => decide (relKey x = relKey r))
              (remapOne m rel) (List.map (remapOne m) rest) hne]
            exact hfind

lemma remapRelationships_spec_core (rels : List Relationship) (m : Str → Option Str) :
    (remapRelationships rels m).Sublist (rels.map (remapOne m)) ∧
    ((remapRelationships rels m).map relKey).Nodup ∧
    (∀ k, k ∈ (rels.map (remapOne m)).map relKey ↔
      k ∈ (remapRelationships rels m).map relKey) ∧
    (∀ r ∈ remapRelationships rels m,
      (rels.map (remapOne m)).find? (fun x => decide (relKey x = relKey r)) = some r) := by
  have h := remap_go m rels [] (by simp)
  simp only [List.map_nil] at h
  obtain ⟨h2, ⟨added, hadd, hsub⟩, h4, h5⟩ := h
  have hout : remapRelationships rels m = added := by
    simp only [remapRelationships]
    rw [hadd]
    simp
  constructor
  · rw [hout]; exact hsub
  · constructor
    · simpa [remapRelationships] using h2
    · constructor
      · intro k
        constructor
        · intro hk
          have := (h4 k).mpr (Or.inr hk)
          simpa [remapRelationships] using this
        · intro hk
          have := (h4 k).mp (by simpa [remapRelationships] using hk)
          simpa using this
      · intro r hr
        have := h5 r (by simpa [remapRelationships] using hr)
        simpa using this

/-- C6 (confirmed): `remap_relationships` deduplicates by the remapped
`(source, relation, target)` triple: the output is a subsequence of the
endpoint-remapped inputs (so it is in first-occurrence order), its keys are
pairwise distinct, every remapped input key appears, and every output
record is literally the first remapped input record with its key — hence
it carries the first occurrence's `evidence_span`, and later duplicates are
dropped. -/
theorem remapRelationships_dedup_spec (rels : List Relationship) (m : Str → Option Str) :
    (remapRelationships rels m).Sublist (rels.map (remapOne m)) ∧
    ((remapRelationships rels m).map relKey).Nodup ∧
    (∀ k, k ∈ (rels.map (remapOne m)).map relKey ↔
      k ∈ (remapRelationships rels m).map relKey) ∧
    (∀ r ∈ remapRelationships rels m,
      (rels.map (remapOne m)).find? (fun x => decide (relKey x = relKey r)) = some r) :=
  remapRelationships_spec_core rels m

/-! Claim C7 -/

/-- C7 (counterexample): utils_kg.py's `remap_relationships` reads endpoints
with `resolved_map[...]`, so a relationship whose source is absent from the
map makes the call raise `KeyError` (modeled as `none`) instead of passing
the endpoint through. -/
theorem ukRemap_missing_key_fails_cx :
    ukRemapRelationships
      [{ source := "a".toList, relation := "r".toList, target := "b".toList }]
      (fun _ => none) = none := by rfl

/-- C7 (amended): the dedupe_entities.py / resolve_entities.py
`remap_relationships` tolerates missing map entries: it never fails, and an
endpoint absent from the map is passed through unchanged into the output
record bearing the relationship's remapped key.  The utils_kg.py variant
instead raises `KeyError` (see `ukRemap_missing_key_fails_cx`). -/
theorem remapRelationships_missing_passthrough (rels : List Relationship)
    (m : Str → Option Str) (r : Relationship) (hr : r ∈ rels) :
    (∃ q ∈ remapRelationships rels m, relKey q = relKey (remapOne m r)) ∧
    (m r.source = none → (remapOne m r).source = r.source) ∧
    (m r.target = none → (remapOne m r).target = r.target) := by
  refine ⟨?_, ?_, ?_⟩
  · have hspec := (remapRelationships_spec_core rels m).2.2.1 (relKey (remapOne m r))
    have hk : relKey (remapOne m r) ∈ (rels.map (remapOne m)).map relKey :=
      List.mem_map_of_mem relKey (List.mem_map_of_mem (remapOne m) hr)
    obtain ⟨q, hq, hqk⟩ := List.mem_map.mp (hspec.mp hk)
    exact ⟨q, hq, hqk⟩
  · intro hs; simp [remapOne, hs]
  · intro ht; simp [remapOne, ht]

def relsC7w : List Relationship :=
  [{ source := "x".toList, relation := "likes".toList, target := "y".toList,
     evidence_span := some "ev".toList }]

theorem remapRelationships_missing_passthrough_witness :
    ({ source := "x".toList, relation := "likes".toList, target := "y".toList,
       evidence_span := some "ev".toList } : Relationship) ∈ relsC7w ∧
    ((∃ q ∈ remapRelationships relsC7w (fun _ => none),
        relKey q = relKey (remapOne (fun _ => none)
          { source := "x".toList, relation := "likes".toList, target := "y".toList,
            evidence_span := some "ev".toList })) ∧
      ((fun (_ : Str) => (none : Option Str))
          ({ source := "x".toList, relation := "likes".toList, target := "y".toList,
             evidence_span := some "ev".toList } : Relationship).source = none →
        (remapOne (fun _ => none)
          { source := "x".toList, relation := "likes".toList, target := "y".toList,
            evidence_span := some "ev".toList }).source
          = ({ source := "x".toList, relation := "likes".toList, target := "y".toList,
               evidence_span := some "ev".toList } : Relationship).source) ∧
      ((fun (_ : Str) => (none : Option Str))
          ({ source := "x".toList, relation := "likes".toList, target := "y".toList,
             evidence_span := some "ev".toList } : Relationship).target = none →
        (remapOne (fun _ => none)
          { source := "x".toList, relation := "likes".toList, target := "y".toList,
            evidence_span := some "ev".toList }).target
          = ({ source := "x".toList, relation := "likes".toList, target := "y".toList,
               evidence_span := some "ev".toList } : Relationship).target)) :=
  ⟨by decide,
    remapRelationships_missing_passthrough relsC7w (fun _ => none) _ (by decide)⟩

/-! ## Claim C9 — frame effects of a resolution pass -/

lemma updNth_append_right (l1 l2 : List α) (n : Nat) (f : α → α) (h : l1.length ≤ n) :
    updNth (l1 ++ l2) n f = l1 ++ updNth l2 (n - l1.length) f := by
  induction l1 generalizing n with
  | nil => simp
  | cons x xs ih =>
    cases n with
    | zero => simp at h
    | succ n =>
      simp only [List.cons_append, updNth, List.length_cons, List.append_eq]
      rw [ih n (by simpa using h)]
      have hn : n + 1 - (xs.length + 1) = n - xs.length := by omega
      rw [hn]

lemma dedupeMergeHeapStep_inv (σS : List Str → List Str → List Str)
    (σV : List PyVal → List PyVal → List PyVal) (t : ℚ) (ents : List Entity)
    (st : HeapState) (k : Nat)
    (h1 : ∃ extra, st.heap = ents ++ extra)
    (h2 : ∀ r ∈ st.canonRefs, ents.length ≤ r) :
    (∃ extra, (dedupeMergeHeapStep σS σV t st k).heap = ents ++ extra) ∧
    (∀ r ∈ (dedupeMergeHeapStep σS σV t st k).canonRefs, ents.length ≤ r) := by
  obtain ⟨extra, hheap⟩ := h1
  unfold dedupeMergeHeapStep
  cases hk : st.heap.get? k with
  | none => exact ⟨⟨extra, hheap⟩, h2⟩
  | some ent =>
    dsimp only
    cases hf : findIdxP (fun r => match st.heap.get? r with
        | some c => entMatches (normalizeName ent.name) t c
        | none => false) st.canonRefs with
    | some p =>
      dsimp only
      cases hp : st.canonRefs.get? p with
      | none => exact ⟨⟨extra, hheap⟩, h2⟩
      | some r =>
        dsimp only
        have hr : ents.length ≤ r := h2 r (List.get?_mem hp)
        refine ⟨⟨updNth extra (r - ents.length) (applyMerge σS σV ent), ?_⟩, h2⟩
        rw [hheap, updNth_append_right _ _ _ _ (by simpa [hheap] using hr)]
    | none =>
      dsimp only
      refine ⟨⟨extra ++ [newCanon ent], by rw [hheap]; simp⟩, ?_⟩
      intro q hq
      rcases List.mem_append.mp hq with hq | hq
      · exact h2 q hq
      · simp only [List.mem_singleton] at hq
        rw [hq, hheap]
        simp

lemma dedupeMergeHeap_go (σS : List Str → List Str → List Str)
    (σV : List PyVal → List PyVal → List PyVal) (t : ℚ) (ents : List Entity) :
    ∀ (ks : List Nat) (st : HeapState),
      (∃ extra, st.heap = ents ++ extra) →
      (∀ r ∈ st.canonRefs, ents.length ≤ r) →
      (∃ extra, (ks.foldl (dedupeMergeHeapStep σS σV t) st).heap = ents ++ extra) ∧
      (∀ r ∈ (ks.foldl (dedupeMergeHeapStep σS σV t) st).canonRefs, ents.length ≤ r) := by
  intro ks
  induction ks with
  | nil => intro st h1 h2; exact ⟨h1, h2⟩
  | cons k ks ih =>
    intro st h1 h2
    rw [List.foldl_cons]
    obtain ⟨h1s, h2s⟩ := dedupeMergeHeapStep_inv σS σV t ents st k h1 h2
    exact ih _ h1s h2s

/-- C9 (amended): `merge_entities` of dedupe_entities.py leaves every caller
record unchanged — writes go only to the deep copies it allocates — so the
first `n` heap positions (the caller's records) after the pass equal the
inputs.  `finalize_entities_and_relationships` additionally deep-copies both
input lists on entry, so it, too, leaves caller records unchanged.  The
utils_kg.py `merge_entities` variant does mutate caller records (see
`ukMerge_mutates_input_cx`). -/
theorem dedupeMergeHeap_inputs_unchanged (σS : List Str → List Str → List Str)
    (σV : List PyVal → List PyVal → List PyVal) (t : ℚ) (ents : List Entity) :
    (dedupeMergeHeap σS σV t ents).heap.take ents.length = ents := by
  obtain ⟨⟨extra, hheap⟩, _⟩ := dedupeMergeHeap_go σS σV t ents (List.range ents.length)
    ⟨ents, [], fun _ => none⟩ ⟨[], by simp⟩ (by simp)
  rw [show dedupeMergeHeap σS σV t ents
    = (List.range ents.length).foldl (dedupeMergeHeapStep σS σV t) ⟨ents, [], fun _ => none⟩
    from rfl]
  rw [hheap]
  exact List.take_left ents extra

def entsC9 : List Entity := [{ id := "1".toList, name := "A".toList }]

/-- C9 (counterexample): utils_kg.py's `merge_entities` mutates the caller's
records: on input `[{"id": "1", "name": "A"}]` (no `aliases` key) the
unmatched branch executes `ent["aliases"] = []` on the caller's record
before appending that record itself to the canonical list, so after the
call the caller's record has gained an `aliases` key. -/
theorem ukMerge_mutates_input_cx :
    ((ukMergeEntities entsC9).heap.get? 0).map Entity.aliases = some (some []) ∧
    (entsC9.get? 0).map Entity.aliases = some none ∧
    (ukMergeEntities entsC9).heap ≠ entsC9 := by
  refine ⟨by decide, by decide, by decide⟩

/-! ## Claims C8/C10 — chunking -/

lemma pyStrip_length_le (s : Str) : (pyStrip s).length ≤ s.length := by
  unfold pyStrip
  calc ((s.dropWhile pyIsSpace).reverse.dropWhile pyIsSpace).reverse.length
      = ((s.dropWhile pyIsSpace).reverse.dropWhile pyIsSpace).length := List.length_reverse _
    _ ≤ (s.dropWhile pyIsSpace).reverse.length :=
        (List.dropWhile_sublist pyIsSpace).length_le
    _ = (s.dropWhile pyIsSpace).length := List.length_reverse _
    _ ≤ s.length := (List.dropWhile_sublist pyIsSpace).length_le

lemma hardSplitF_nil (fuel m : Nat) : hardSplitF fuel [] m = [] := by
  cases fuel <;> rfl

lemma hardSplitF_length_le :
    ∀ (fuel : Nat) (s : Str) (m : Nat), ∀ c ∈ hardSplitF fuel s m, c.length ≤ m := by
  intro fuel
  induction fuel with
  | zero => intro s m c hc; simp [hardSplitF] at hc
  | succ fuel ih =>
    intro s m c hc
    cases s with
    | nil => simp [hardSplitF] at hc
    | cons z rest =>
      unfold hardSplitF at hc
      split at hc
      · simp at hc
      · rcases List.mem_cons.mp hc with hc | hc
        · rw [hc]
          simp only [List.length_take]
          exact Nat.min_le_left m (z :: rest).length
        · exact ih _ m c hc

lemma hardSplitF_ne_nil :
    ∀ (fuel : Nat) (s : Str) (m : Nat), ∀ c ∈ hardSplitF fuel s m, c ≠ [] := by
  intro fuel
  induction fuel with
  | zero => intro s m c hc; simp [hardSplitF] at hc
  | succ fuel ih =>
    intro s m c hc
    cases s with
    | nil => simp [hardSplitF] at hc
    | cons z rest =>
      unfold hardSplitF at hc
      split at hc
      · simp at hc
      · next hm =>
        rcases List.mem_cons.mp hc with hc | hc
        · rw [hc]
          cases m with
          | zero => exact absurd rfl hm
          | succ m => simp [List.take_cons]
        · exact ih _ m c hc

lemma hardSplitF_map_length :
    ∀ (fuel : Nat) (s : Str) (m : Nat), 0 < m → s.length ≤ fuel →
    (hardSplitF fuel s m).map List.length
      = List.replicate (s.length / m) m
        ++ (if s.length % m = 0 then [] else [s.length % m]) := by
  intro fuel
  induction fuel with
  | zero =>
    intro s m hm hs
    have : s = [] := List.length_eq_zero.mp (by omega)
    subst this
    simp [hardSplitF, Nat.zero_div, Nat.zero_mod]
  | succ fuel ih =>
    intro s m hm hs
    cases s with
    | nil => simp [hardSplitF, Nat.zero_div, Nat.zero_mod]
    | cons z rest =>
      unfold hardSplitF
      rw [if_neg (by omega)]
      have hlen : (z :: rest).length = rest.length + 1 := by simp
      by_cases hcase : (z :: rest).length ≤ m
      · have hdrop : (z :: rest).drop m = [] := List.drop_eq_nil_of_le hcase
        rw [hdrop, hardSplitF_nil]
        have htake : ((z :: rest).take m).length = (z :: rest).length := by
          rw [List.length_take]
          omega
        rcases Nat.lt_or_ge (z :: rest).length m with hlt | hge
        · rw [Nat.div_eq_of_lt hlt, Nat.mod_eq_of_lt hlt]
          simp only [List.map_cons, List.map_nil, List.replicate_zero, List.nil_append, htake]
          rw [if_neg (by omega)]
        · have heq : (z :: rest).length = m := by omega
          rw [heq, Nat.div_self hm, Nat.mod_self]
          simp [htake, heq]
      · have hmlt : m < (z :: rest).length := by omega
        have hdl : ((z :: rest).drop m).length = (z :: rest).length - m := List.length_drop m _
        have hrec := ih ((z :: rest).drop m) m hm (by omega)
        simp only [List.map_cons]
        rw [hrec, hdl]
        have htake : ((z :: rest).take m).length = m := by
          rw [List.length_take]; omega
        rw [htake]
        have hdiv : (z :: rest).length / m = ((z :: rest).length - m) / m + 1 := by
          rw [Nat.div_eq]
          rw [if_pos ⟨hm, by omega⟩]
        have hmod : (z :: rest).length % m = ((z :: rest).length - m) % m := by
          conv_lhs => rw [Nat.mod_eq]
          rw [if_pos ⟨hm, by omega⟩]
        rw [hdiv, hmod, List.replicate_succ, List.cons_append]

lemma chunkStep_bound (maxC : Nat) (acc : List Str × Str) (s0 : Str)
    (h1 : ∀ c ∈ acc.1, c.length ≤ maxC) (h2 : acc.2.length ≤ maxC) :
    (∀ c ∈ (chunkStep maxC acc s0).1, c.length ≤ maxC) ∧
    (chunkStep maxC acc s0).2.length ≤ maxC := by
  unfold chunkStep
  split
  · exact ⟨h1, h2⟩
  · split
    · next hfit =>
      refine ⟨h1, le_trans (pyStrip_length_le _) ?_⟩
      simp only [List.length_append, List.length_cons, List.length_nil]
      omega
    · next hfit =>
      have hflush : ∀ c ∈ acc.1 ++ (if acc.2 = [] then [] else [acc.2]), c.length ≤ maxC := by
        intro c hc
        rcases List.mem_append.mp hc with hc | hc
        · exact h1 c hc
        · split at hc
          · simp at hc
          · simp only [List.mem_singleton] at hc
            exact hc ▸ h2
      split
      · next hbig =>
        refine ⟨?_, by simp⟩
        intro c hc
        rcases List.mem_append.mp hc with hc | hc
        · exact hflush c hc
        · exact hardSplitF_length_le _ _ _ c hc
      · next hbig =>
        exact ⟨hflush, by dsimp only; omega⟩

lemma chunkFold_bound (maxC : Nat) :
    ∀ (pieces : List Str) (acc : List Str × Str),
      (∀ c ∈ acc.1, c.length ≤ maxC) → acc.2.length ≤ maxC →
      (∀ c ∈ (pieces.foldl (chunkStep maxC) acc).1, c.length ≤ maxC) ∧
      (pieces.foldl (chunkStep maxC) acc).2.length ≤ maxC := by
  intro pieces
  induction pieces with
  | nil =>
    intro acc h1 h2
    simp only [List.foldl_nil]
    exact ⟨h1, h2⟩
  | cons p ps ih =>
    intro acc h1 h2
    rw [List.foldl_cons]
    obtain ⟨h1s, h2s⟩ := chunkStep_bound maxC acc p h1 h2
    exact ih _ h1s h2s

/-- C8 (confirmed): every chunk produced before the overlap pass has length
at most `max_chars`, and an oversized sentence fragment is hard-split into
slices of exactly `max_chars` characters each, except possibly a shorter
last slice (the `map length` identity: `len / max` full slices followed by
the `len % max` remainder when nonzero). -/
theorem chunkTextPre_length_bound (text : Str) (maxC : Nat) (h : 0 < maxC) :
    (∀ c ∈ chunkTextPre text maxC, c.length ≤ maxC) ∧
    (∀ s : Str, maxC < s.length →
      (hardSplit s maxC).map List.length
        = List.replicate (s.length / maxC) maxC
          ++ (if s.length % maxC = 0 then [] else [s.length % maxC])) := by
  constructor
  · intro c hc
    unfold chunkTextPre at hc
    obtain ⟨h1, h2⟩ := chunkFold_bound maxC (splitSentences text) ([], [])
      (by simp) (by simp)
    rcases List.mem_append.mp hc with hc | hc
    · exact h1 c hc
    · split at hc
      · simp at hc
      · simp only [List.mem_singleton] at hc
        exact hc ▸ h2
  · intro s _
    exact hardSplitF_map_length s.length s maxC h (le_refl _)

theorem chunkTextPre_length_bound_witness :
    0 < 3 ∧
    ((∀ c ∈ chunkTextPre "ab. cdef.".toList 3, c.length ≤ 3) ∧
      (∀ s : Str, 3 < s.length →
        (hardSplit s 3).map List.length
          = List.replicate (s.length / 3) 3
            ++ (if s.length % 3 = 0 then [] else [s.length % 3]))) :=
  ⟨by decide, chunkTextPre_length_bound "ab. cdef.".toList 3 (by decide)⟩

/-- C10 (counterexample): `chunk_text` can return empty strings.  For
`chunk_text("aa    b.", max_chars=2, overlap=1)` the oversized sentence is
hard-split into `["aa", "  ", "  ", "b."]`; in the overlap pass the
all-whitespace slices contribute no overlap words, and
`("" + " " + "  ").strip()` is the empty string, which lands in the
output. -/
theorem chunkText_empty_chunk_cx :
    [] ∈ chunkText "aa    b.".toList 2 1 := by decide

lemma hardSplit_ne_nil (s : Str) (m : Nat) : ∀ c ∈ hardSplit s m, c ≠ [] :=
  hardSplitF_ne_nil s.length s m

lemma chunkStep_ne_nil (maxC : Nat) (acc : List Str × Str) (s0 : Str)
    (h1 : ∀ c ∈ acc.1, c ≠ []) :
    ∀ c ∈ (chunkStep maxC acc s0).1, c ≠ [] := by
  unfold chunkStep
  split
  · exact h1
  · split
    · exact h1
    · have hflush : ∀ c ∈ acc.1 ++ (if acc.2 = [] then [] else [acc.2]), c ≠ [] := by
        intro c hc
        rcases List.mem_append.mp hc with hc | hc
        · exact h1 c hc
        · split at hc
          · simp at hc
          · next hcur =>
            simp only [List.mem_singleton] at hc
            exact hc ▸ hcur
      split
      · intro c hc
        rcases List.mem_append.mp hc with hc | hc
        · exact hflush c hc
        · exact hardSplit_ne_nil _ _ c hc
      · exact hflush

lemma chunkFold_ne_nil (maxC : Nat) :
    ∀ (pieces : List Str) (acc : List Str × Str),
      (∀ c ∈ acc.1, c ≠ []) →
      ∀ c ∈ (pieces.foldl (chunkStep maxC) acc).1, c ≠ [] := by
  intro pieces
  induction pieces with
  | nil =>
    intro acc h1
    simpa only [List.foldl_nil] using h1
  | cons p ps ih =>
    intro acc h1
    rw [List.foldl_cons]
    exact ih _ (chunkStep_ne_nil maxC acc p h1)

lemma pyStrip_eq_nil_of_all (s : Str) (h : ∀ c ∈ s, pyIsSpace c = true) :
    pyStrip s = [] := by
  unfold pyStrip
  have h1 : s.dropWhile pyIsSpace = [] := List.dropWhile_eq_nil_iff.mpr h
  rw [h1]
  rfl

lemma splitSentences_chars (text : Str) :
    ∀ p ∈ splitSentences text, ∀ c ∈ p, c ∈ text := by
  have main : ∀ (t : Str) (acc : List Str × Str),
      (∀ p ∈ acc.1, ∀ c ∈ p, c ∈ text) → (∀ c ∈ acc.2, c ∈ text) →
      (∀ c ∈ t, c ∈ text) →
      (∀ p ∈ (t.foldl
        (fun (acc : List Str × Str) c =>
          let cur := acc.2 ++ [c]
          if c = '.' ∨ c = '!' ∨ c = '?' then (acc.1 ++ [cur], []) else (acc.1, cur)) acc).1,
        ∀ c ∈ p, c ∈ text) ∧
      (∀ c ∈ (t.foldl
        (fun (acc : List Str × Str) c =>
          let cur := acc.2 ++ [c]
          if c = '.' ∨ c = '!' ∨ c = '?' then (acc.1 ++ [cur], []) else (acc.1, cur)) acc).2,
        c ∈ text) := by
    intro t
    induction t with
    | nil => intro acc hp hcur _; exact ⟨hp, hcur⟩
    | cons z zs ih =>
      intro acc hp hcur ht
      rw [List.foldl_cons]
      apply ih
      · dsimp only
        split
        · intro p hpm
          rcases List.mem_append.mp hpm with hpm | hpm
          · exact hp p hpm
          · simp only [List.mem_singleton] at hpm
            intro c hc
            rw [hpm] at hc
            rcases List.mem_append.mp hc with hc | hc
            · exact hcur c hc
            · simp only [List.mem_singleton] at hc
              exact hc ▸ ht z (List.mem_cons_self _ _)
        · exact hp
      · dsimp only
        split
        · intro c hc; simp at hc
        · intro c hc
          rcases List.mem_append.mp hc with hc | hc
          · exact hcur c hc
          · simp only [List.mem_singleton] at hc
            exact hc ▸ ht z (List.mem_cons_self _ _)
      · intro c hc; exact ht c (List.mem_cons_of_mem _ hc)
  intro p hp
  unfold splitSentences at hp
  have hm := main text ([], []) (by simp) (by simp) (fun c hc => hc)
  rcases List.mem_append.mp hp with hp | hp
  · exact hm.1 p hp
  · simp only [List.mem_singleton] at hp
    exact hp ▸ hm.2

lemma chunkFold_all_ws (maxC : Nat) :
    ∀ (pieces : List Str), (∀ p ∈ pieces, pyStrip p = []) →
      pieces.foldl (chunkStep maxC) ([], []) = ([], []) := by
  intro pieces
  induction pieces with
  | nil => intro _; rfl
  | cons p ps ih =>
    intro h
    rw [List.foldl_cons]
    have hstep : chunkStep maxC ([], []) p = ([], []) := by
      unfold chunkStep
      rw [if_pos (h p (List.mem_cons_self _ _))]
    rw [hstep]
    exact ih (fun q hq => h q (List.mem_cons_of_mem _ hq))

/-- C10 (amended): with `overlap = 0` every chunk returned by `chunk_text`
is a non-empty string, and text containing no non-whitespace characters
yields the empty list (for every overlap).  With `overlap > 0` the overlap
pass can strip a hard-split all-whitespace slice down to the empty string
(see `chunkText_empty_chunk_cx`), so the non-emptiness clause does not hold
unconditionally. -/
theorem chunkText_nonempty (text : Str) (maxC ov : Nat) (h : 0 < maxC) :
    (ov = 0 → ∀ c ∈ chunkText text maxC ov, c ≠ []) ∧
    ((∀ ch ∈ text, pyIsSpace ch = true) → chunkText text maxC ov = []) := by
  constructor
  · intro hov c hc
    rw [hov] at hc
    unfold chunkText applyOverlap at hc
    rw [if_neg (by simp)] at hc
    unfold chunkTextPre at hc
    rcases List.mem_append.mp hc with hc | hc
    · exact chunkFold_ne_nil maxC (splitSentences text) ([], []) (by simp) c hc
    · split at hc
      · simp at hc
      · next hcur =>
        simp only [List.mem_singleton] at hc
        exact hc ▸ hcur
  · intro hws
    have hpre : chunkTextPre text maxC = [] := by
      unfold chunkTextPre
      rw [chunkFold_all_ws maxC (splitSentences text)
        (fun p hp => pyStrip_eq_nil_of_all p
          (fun c hc => hws c (splitSentences_chars text p hp c hc)))]
      rfl
    unfold chunkText
    rw [hpre]
    unfold applyOverlap
    rw [if_neg (by simp)]

theorem chunkText_nonempty_witness :
    0 < 2 ∧
    ((0 = 0 → ∀ c ∈ chunkText "aa    b.".toList 2 0, c ≠ []) ∧
      ((∀ ch ∈ "aa    b.".toList, pyIsSpace ch = true) →
        chunkText "aa    b.".toList 2 0 = [])) :=
  ⟨by decide, chunkText_nonempty "aa    b.".toList 2 0 (by decide)⟩

/-! ## Claim C4 — unmatched entities become fresh canonicals -/

/-- C4 (confirmed): an input entity matching no existing canonical makes
`merge_entities` append a new canonical that is the (deep-copied) incoming
record itself with `aliases` defaulted to `[]` when absent — every other
field (`id`, `name`, open attributes) preserved — and map the incoming id
to itself. -/
theorem mergeEntities_unmatched_new_canonical
    (σS : List Str → List Str → List Str) (σV : List PyVal → List PyVal → List PyVal)
    (t : ℚ) (ents : List Entity) (k : Nat) (hk : k < ents.length)
    (hnone : findIdxP (entMatches (normalizeName (ents.get ⟨k, hk⟩).name) t)
      (((ents.take k).foldl (mergeStep σS σV t) ⟨[], fun _ => none⟩).canons) = none) :
    (((ents.take (k + 1)).foldl (mergeStep σS σV t) ⟨[], fun _ => none⟩).canons
      = ((ents.take k).foldl (mergeStep σS σV t) ⟨[], fun _ => none⟩).canons
        ++ [newCanon (ents.get ⟨k, hk⟩)]) ∧
    (((ents.take (k + 1)).foldl (mergeStep σS σV t) ⟨[], fun _ => none⟩).rmap
        (ents.get ⟨k, hk⟩).id = some (ents.get ⟨k, hk⟩).id) ∧
    (newCanon (ents.get ⟨k, hk⟩)
      = { ents.get ⟨k, hk⟩ with aliases := some ((ents.get ⟨k, hk⟩).aliases.getD []) }) := by
  have htake : ents.take (k + 1) = ents.take k ++ [ents.get ⟨k, hk⟩] := by
    rw [List.take_succ]
    congr 1
    rw [List.getElem?_eq_getElem hk]
    simp [List.get_eq_getElem]
  rw [htake, List.foldl_append, List.foldl_cons, List.foldl_nil]
  simp only [mergeStep]
  rw [hnone]
  exact ⟨rfl, by dsimp only; rw [if_pos rfl]; rfl, rfl⟩

def entsC4w : List Entity :=
  [{ id := "7".toList, name := "Solo".toList,
     attrs := [("kind".toList, PyVal.vs "person".toList)] }]

theorem mergeEntities_unmatched_new_canonical_witness :
    0 < entsC4w.length ∧
    findIdxP (entMatches (normalizeName (entsC4w.get ⟨0, by decide⟩).name) ((4 : ℚ) / 5))
      (((entsC4w.take 0).foldl (mergeStep unionFirst unionFirst ((4 : ℚ) / 5))
        ⟨[], fun _ => none⟩).canons) = none ∧
    ((((entsC4w.take 1).foldl (mergeStep unionFirst unionFirst ((4 : ℚ) / 5))
        ⟨[], fun _ => none⟩).canons
      = (((entsC4w.take 0).foldl (mergeStep unionFirst unionFirst ((4 : ℚ) / 5))
        ⟨[], fun _ => none⟩).canons) ++ [newCanon (entsC4w.get ⟨0, by decide⟩)]) ∧
    ((((entsC4w.take 1).foldl (mergeStep unionFirst unionFirst ((4 : ℚ) / 5))
        ⟨[], fun _ => none⟩).rmap (entsC4w.get ⟨0, by decide⟩).id
      = some (entsC4w.get ⟨0, by decide⟩).id)) ∧
    (newCanon (entsC4w.get ⟨0, by decide⟩)
      = { entsC4w.get ⟨0, by decide⟩ with
          aliases := some ((entsC4w.get ⟨0, by decide⟩).aliases.getD []) })) :=
  ⟨by decide, by decide,
    mergeEntities_unmatched_new_canonical unionFirst unionFirst ((4 : ℚ) / 5)
      entsC4w 0 (by decide) (by decide)⟩

/-! ## Claim C1 — identical normalized names -/

lemma applyMerge_id (σS : List Str → List Str → List Str)
    (σV : List PyVal → List PyVal → List PyVal) (e c : Entity) :
    (applyMerge σS σV e c).id = c.id := rfl

lemma applyMerge_name (σS : List Str → List Str → List Str)
    (σV : List PyVal → List PyVal → List PyVal) (e c : Entity) :
    (applyMerge σS σV e c).name = c.name := rfl

lemma applyMerge_aliases_none (σS : List Str → List Str → List Str)
    (σV : List PyVal → List PyVal → List PyVal) (e c : Entity) (he : e.aliases = none) :
    (applyMerge σS σV e c).aliases
      = some ((c.aliases.getD [])
          ++ (if e.name ≠ c.name ∧ e.name ∉ c.aliases.getD [] then [e.name] else [])) := by
  unfold applyMerge
  rw [he]
  dsimp only
  split
  · rfl
  · simp

lemma entMatches_applyMerge_mono (σS : List Str → List Str → List Str)
    (σV : List PyVal → List PyVal → List PyVal) (t : ℚ) (e c : Entity)
    (he : e.aliases = none) (nn : Str) (h : entMatches nn t c = true) :
    entMatches nn t (applyMerge σS σV e c) = true := by
  unfold entMatches at h ⊢
  rw [applyMerge_name, applyMerge_aliases_none σS σV e c he]
  simp only [Bool.or_eq_true, decide_eq_true_eq, Option.getD_some] at h ⊢
  rcases h with (h | h) | h
  · exact Or.inl (Or.inl h)
  · refine Or.inl (Or.inr ?_)
    rw [List.map_append]
    exact List.mem_append_left _ h
  · exact Or.inr h

lemma entMatches_applyMerge_rev (σS : List Str → List Str → List Str)
    (σV : List PyVal → List PyVal → List PyVal) (t : ℚ) (e c : Entity)
    (he : e.aliases = none) (nn : Str)
    (h : entMatches nn t (applyMerge σS σV e c) = true) :
    entMatches nn t c = true ∨ nn = normalizeName e.name := by
  unfold entMatches at h ⊢
  rw [applyMerge_name, applyMerge_aliases_none σS σV e c he] at h
  simp only [Bool.or_eq_true, decide_eq_true_eq, Option.getD_some] at h ⊢
  rcases h with (h | h) | h
  · exact Or.inl (Or.inl (Or.inl h))
  · rw [List.map_append, List.mem_append] at h
    rcases h with h | h
    · exact Or.inl (Or.inl (Or.inr h))
    · right
      split at h
      · simp only [List.map_cons, List.map_nil, List.mem_singleton] at h
        exact h
      · simp at h
  · exact Or.inl (Or.inr h)

/-- Routing invariant of the `merge_entities` loop: every processed entity
is routed to the first canonical its normalized name matches, and the map
records that canonical's id. -/
def RoutedOK (t : ℚ) (st : MState) (processed : List Entity) : Prop :=
  ∀ e ∈ processed, ∃ p c,
    findIdxP (entMatches (normalizeName e.name) t) st.canons = some p ∧
    st.canons.get? p = some c ∧ st.rmap e.id = some c.id

lemma entMatches_newCanon (t : ℚ) (e : Entity) :
    entMatches (normalizeName e.name) t (newCanon e) = true := by
  unfold entMatches newCanon
  simp

lemma mergeStep_routed (σS : List Str → List Str → List Str)
    (σV : List PyVal → List PyVal → List PyVal) (t : ℚ)
    (st : MState) (processed : List Entity) (e : Entity)
    (he : e.aliases = none)
    (hid : e.id ∉ processed.map Entity.id)
    (hroute : RoutedOK t st processed) :
    RoutedOK t (mergeStep σS σV t st e) (processed ++ [e]) := by
  intro f hf
  have hfid : f ∈ processed → ¬ f.id = e.id := by
    intro hfp heq
    exact hid (heq ▸ List.mem_map_of_mem Entity.id hfp)
  simp only [mergeStep]
  split
  · next p hfind =>
    have hlt := findIdxP_some_lt _ _ _ hfind
    split
    · next c hget =>
      dsimp only
      have hpc : entMatches (normalizeName e.name) t c = true := by
        obtain ⟨x, hx, hpx⟩ := findIdxP_some_get _ _ _ hfind
        rw [hget] at hx
        injection hx with hx
        exact hx ▸ hpx
      rcases List.mem_append.mp hf with hfp | hfe
      · obtain ⟨q, d, hfq, hgd, hmd⟩ := hroute f hfp
        by_cases hqp : q = p
        · subst hqp
          have hdc : d = c := by rw [hgd] at hget; injection hget
          subst hdc
          refine ⟨q, applyMerge σS σV e d, ?_, ?_, ?_⟩
          · apply findIdxP_eq_some_of _ _ _ (applyMerge σS σV e d)
            · rw [get?_updNth_eq, hgd]
              rfl
            · have hpd : entMatches (normalizeName f.name) t d = true := by
                obtain ⟨x, hx, hpx⟩ := findIdxP_some_get _ _ _ hfq
                rw [hgd] at hx
                injection hx with hx
                exact hx ▸ hpx
              exact entMatches_applyMerge_mono σS σV t e d he _ hpd
            · intro r hr y hy
              rw [get?_updNth_ne _ _ _ _ (by omega)] at hy
              exact findIdxP_some_earlier _ _ _ hfq r hr y hy
          · rw [get?_updNth_eq, hgd]
            rfl
          · rw [if_neg (hfid hfp)]
            rw [hmd, applyMerge_id]
        · refine ⟨q, d, ?_, ?_, ?_⟩
          · apply findIdxP_eq_some_of _ _ _ d
            · rw [get?_updNth_ne _ _ _ _ hqp]
              exact hgd
            · obtain ⟨x, hx, hpx⟩ := findIdxP_some_get _ _ _ hfq
              rw [hgd] at hx
              injection hx with hx
              exact hx ▸ hpx
            · intro r hr y hy
              by_cases hrp : r = p
              · subst hrp
                rw [get?_updNth_eq, hget] at hy
                injection hy with hy
                by_contra htrue
                rw [Bool.not_eq_false, ← hy] at htrue
                rcases entMatches_applyMerge_rev σS σV t e c he _ htrue with hc | hnn
                · have hfalse := findIdxP_some_earlier _ _ _ hfq r hr c hget
                  rw [hc] at hfalse
                  cases hfalse
                · rw [hnn] at hfq
                  rw [hfq] at hfind
                  injection hfind with hpq
                  exact hqp hpq
              · rw [get?_updNth_ne _ _ _ _ hrp] at hy
                exact findIdxP_some_earlier _ _ _ hfq r hr y hy
          · rw [get?_updNth_ne _ _ _ _ hqp]
            exact hgd
          · rw [if_neg (hfid hfp)]
            exact hmd
      · simp only [List.mem_singleton] at hfe
        subst hfe
        refine ⟨p, applyMerge σS σV f c, ?_, ?_, ?_⟩
        · apply findIdxP_eq_some_of _ _ _ (applyMerge σS σV f c)
          · rw [get?_updNth_eq, hget]
            rfl
          · exact entMatches_applyMerge_mono σS σV t f c he _ hpc
          · intro r hr y hy
            rw [get?_updNth_ne _ _ _ _ (by omega)] at hy
            exact findIdxP_some_earlier _ _ _ hfind r hr y hy
        · rw [get?_updNth_eq, hget]
          rfl
        · rw [if_pos rfl, applyMerge_id]
    · next hget =>
      exfalso
      rw [List.get?_eq_none] at hget
      omega
  · next hfind =>
    dsimp only
    rcases List.mem_append.mp hf with hfp | hfe
    · obtain ⟨q, d, hfq, hgd, hmd⟩ := hroute f hfp
      refine ⟨q, d, findIdxP_append_of_some _ _ _ _ hfq, ?_, ?_⟩
      · rw [List.get?_append (findIdxP_some_lt _ _ _ hfq)]
        exact hgd
      · rw [if_neg (hfid hfp)]
        exact hmd
    · simp only [List.mem_singleton] at hfe
      subst hfe
      refine ⟨st.canons.length, newCanon f, ?_, ?_, ?_⟩
      · rw [findIdxP_append_singleton _ _ _ hfind, entMatches_newCanon]
        rfl
      · exact List.get?_concat_length _ _
      · rw [if_pos rfl]

lemma mergeFold_routed (σS : List Str → List Str → List Str)
    (σV : List PyVal → List PyVal → List PyVal) (t : ℚ) :
    ∀ (rest processed : List Entity) (st : MState),
      (∀ x ∈ processed ++ rest, x.aliases = none) →
      ((processed ++ rest).map Entity.id).Nodup →
      RoutedOK t st processed →
      RoutedOK t (rest.foldl (mergeStep σS σV t) st) (processed ++ rest) := by
  intro rest
  induction rest with
  | nil =>
    intro processed st _ _ hroute
    simpa using hroute
  | cons e rest ih =>
    intro processed st hal hnd hroute
    have hassoc : processed ++ e :: rest = (processed ++ [e]) ++ rest := by
      simp
    rw [hassoc] at hal hnd ⊢
    rw [List.foldl_cons]
    apply ih (processed ++ [e]) _ hal hnd
    apply mergeStep_routed σS σV t st processed e
    · exact hal e (by simp)
    · intro hmem
      have hnd2 : ((processed ++ [e]).map Entity.id).Nodup := by
        rw [List.map_append] at hnd
        exact (List.nodup_append.mp hnd).1
      rw [List.map_append] at hnd2
      have := List.disjoint_of_nodup_append hnd2
      exact this hmem (by simp)
    · exact hroute

/-- C1 (amended): when input ids are pairwise distinct (the data model's
invariant) and no input record carries a pre-existing `aliases` field, two
entities with identical normalized names are always routed to the same
canonical entity, for every threshold: canonical names never change, alias
sets only grow by surface forms of entities routed there, so the first
matching canonical index is the same function of the normalized name for
both entities.  Input records carrying their own `aliases` can break this
(see `mergeEntities_alias_injected_split_cx`). -/
theorem mergeEntities_same_norm_same_canonical
    (σS : List Str → List Str → List Str) (σV : List PyVal → List PyVal → List PyVal)
    (t : ℚ) (ents : List Entity)
    (hids : (ents.map Entity.id).Nodup)
    (hal : ∀ e ∈ ents, e.aliases = none)
    (e1 : Entity) (h1 : e1 ∈ ents) (e2 : Entity) (h2 : e2 ∈ ents)
    (hnorm : normalizeName e1.name = normalizeName e2.name) :
    (mergeEntities σS σV ents t).2 e1.id = (mergeEntities σS σV ents t).2 e2.id ∧
    ((mergeEntities σS σV ents t).2 e1.id).isSome = true := by
  have hfold := mergeFold_routed σS σV t ents [] ⟨[], fun _ => none⟩
    (by simpa using hal) (by simpa using hids) (by intro f hf; simp at hf)
  simp only [List.nil_append] at hfold
  obtain ⟨p1, c1, hf1, hg1, hm1⟩ := hfold e1 h1
  obtain ⟨p2, c2, hf2, hg2, hm2⟩ := hfold e2 h2
  rw [hnorm] at hf1
  rw [hf1] at hf2
  injection hf2 with hp
  rw [← hp] at hg2
  rw [hg1] at hg2
  injection hg2 with hc
  constructor
  · show (ents.foldl (mergeStep σS σV t) ⟨[], fun _ => none⟩).rmap e1.id
      = (ents.foldl (mergeStep σS σV t) ⟨[], fun _ => none⟩).rmap e2.id
    rw [hm1, hm2, hc]
  · show ((ents.foldl (mergeStep σS σV t) ⟨[], fun _ => none⟩).rmap e1.id).isSome = true
    rw [hm1]
    rfl

def entsC1w : List Entity :=
  [{ id := "1".toList, name := "Dr Watson".toList },
   { id := "2".toList, name := "watson".toList }]

theorem mergeEntities_same_norm_same_canonical_witness :
    (entsC1w.map Entity.id).Nodup ∧
    (∀ e ∈ entsC1w, e.aliases = none) ∧
    entsC1w.get ⟨0, by decide⟩ ∈ entsC1w ∧
    entsC1w.get ⟨1, by decide⟩ ∈ entsC1w ∧
    normalizeName (entsC1w.get ⟨0, by decide⟩).name
      = normalizeName (entsC1w.get ⟨1, by decide⟩).name ∧
    ((mergeEntities unionFirst unionFirst entsC1w ((4 : ℚ) / 5)).2
        (entsC1w.get ⟨0, by decide⟩).id
      = (mergeEntities unionFirst unionFirst entsC1w ((4 : ℚ) / 5)).2
        (entsC1w.get ⟨1, by decide⟩).id ∧
      ((mergeEntities unionFirst unionFirst entsC1w ((4 : ℚ) / 5)).2
        (entsC1w.get ⟨0, by decide⟩).id).isSome = true) :=
  ⟨by decide, by decide, by decide, by decide, by decide,
    mergeEntities_same_norm_same_canonical unionFirst unionFirst ((4 : ℚ) / 5) entsC1w
      (by decide) (by decide) _ (by decide) _ (by decide) (by decide)⟩

def entsC1c : List Entity :=
  [{ id := "1".toList, name := "gg".toList },
   { id := "2".toList, name := "zz".toList },
   { id := "3".toList, name := "ggg".toList, aliases := some ["zz".toList] },
   { id := "4".toList, name := "zz".toList }]

/-- C1 (counterexample): with an input record carrying a pre-existing
`aliases` list, two entities with identical names (hence identical
normalized names) can be routed to different canonical entities.  At
threshold `0.8`: `"zz"` (id 2) matches nothing and becomes canonical;
`"ggg"` (id 3, aliases `["zz"]`) fuzzy-matches the canonical `"gg"`
(ratio exactly `0.8`) and the attribute union-merge injects its alias
`"zz"` into that canonical; the second `"zz"` (id 4) then exact-matches the
canonical `"gg"` via that alias.  The map sends id 2 and id 4 to different
canonical ids although both records are named `"zz"`. -/
theorem mergeEntities_alias_injected_split_cx :
    (entsC1c.get? 1).map Entity.name = some "zz".toList ∧
    (entsC1c.get? 3).map Entity.name = some "zz".toList ∧
    (mergeEntities unionFirst unionFirst entsC1c ((4 : ℚ) / 5)).2 "2".toList
      ≠ (mergeEntities unionFirst unionFirst entsC1c ((4 : ℚ) / 5)).2 "4".toList := by
  refine ⟨by decide, by decide, ?_⟩
  rw [show ((4 : ℚ) / 5) = Rat.mk' 4 5 from by
    rw [Rat.mk'_eq_divInt, Rat.divInt_eq_div]; norm_num]
  decide

/-! ## Claim C5 — alias audit trail -/

/-- Per-canonical alias invariant: duplicate-free, never the display name,
and every entry is the raw name of some input entity. -/
def AliasAudit (names : List Str) (c : Entity) : Prop :=
  (c.aliases.getD []).Nodup ∧ c.name ∉ c.aliases.getD [] ∧
  ∀ a ∈ c.aliases.getD [], a ∈ names

lemma applyMerge_aliasAudit (σS : List Str → List Str → List Str)
    (σV : List PyVal → List PyVal → List PyVal) (names : List Str)
    (e c : Entity) (he : e.aliases = none) (hen : e.name ∈ names)
    (h : AliasAudit names c) : AliasAudit names (applyMerge σS σV e c) := by
  obtain ⟨hnd, hnm, hsub⟩ := h
  unfold AliasAudit
  rw [applyMerge_aliases_none σS σV e c he, applyMerge_name]
  simp only [Option.getD_some]
  split
  · next hcond =>
    refine ⟨?_, ?_, ?_⟩
    · rw [List.nodup_append]
      exact ⟨hnd, List.nodup_singleton _, by
        intro a ha hb
        simp only [List.mem_singleton] at hb
        exact hcond.2 (hb ▸ ha)⟩
    · intro hmem
      rcases List.mem_append.mp hmem with hmem | hmem
      · exact hnm hmem
      · simp only [List.mem_singleton] at hmem
        exact hcond.1 hmem.symm
    · intro a ha
      rcases List.mem_append.mp ha with ha | ha
      · exact hsub a ha
      · simp only [List.mem_singleton] at ha
        exact ha ▸ hen
  · rw [List.append_nil]
    exact ⟨hnd, hnm, hsub⟩

lemma mergeStep_aliasAudit (σS : List Str → List Str → List Str)
    (σV : List PyVal → List PyVal → List PyVal) (t : ℚ) (names : List Str)
    (st : MState) (e : Entity) (he : e.aliases = none) (hen : e.name ∈ names)
    (h : ∀ c ∈ st.canons, AliasAudit names c) :
    ∀ c ∈ (mergeStep σS σV t st e).canons, AliasAudit names c := by
  intro c hc
  simp only [mergeStep] at hc
  split at hc
  · next p hfind =>
    split at hc
    · next d hget =>
      dsimp only at hc
      rcases mem_updNth _ _ _ _ hc with hcm | ⟨y, hy, hcy⟩
      · exact h c hcm
      · rw [hcy]
        exact applyMerge_aliasAudit σS σV names e y he hen (h y (List.get?_mem hy))
    · next hget => exact h c hc
  · next hfind =>
    dsimp only at hc
    rcases List.mem_append.mp hc with hcm | hcm
    · exact h c hcm
    · simp only [List.mem_singleton] at hcm
      rw [hcm]
      unfold AliasAudit newCanon
      rw [he]
      simp

lemma mergeFold_aliasAudit (σS : List Str → List Str → List Str)
    (σV : List PyVal → List PyVal → List PyVal) (t : ℚ) (names : List Str) :
    ∀ (rest : List Entity) (st : MState),
      (∀ e ∈ rest, e.aliases = none) → (∀ e ∈ rest, e.name ∈ names) →
      (∀ c ∈ st.canons, AliasAudit names c) →
      ∀ c ∈ (rest.foldl (mergeStep σS σV t) st).canons, AliasAudit names c := by
  intro rest
  induction rest with
  | nil =>
    intro st _ _ h
    simpa using h
  | cons e rest ih =>
    intro st hal hn h
    rw [List.foldl_cons]
    exact ih _ (fun x hx => hal x (List.mem_cons_of_mem _ hx))
      (fun x hx => hn x (List.mem_cons_of_mem _ hx))
      (mergeStep_aliasAudit σS σV t names st e (hal e (List.mem_cons_self _ _))
        (hn e (List.mem_cons_self _ _)) h)

lemma mergeStep_alias_prefix (σS : List Str → List Str → List Str)
    (σV : List PyVal → List PyVal → List PyVal) (t : ℚ)
    (st : MState) (e : Entity) (he : e.aliases = none) (p : Nat) (c c₂ : Entity)
    (hc : st.canons.get? p = some c)
    (hc₂ : (mergeStep σS σV t st e).canons.get? p = some c₂) :
    (c.aliases.getD []) <+: (c₂.aliases.getD []) := by
  simp only [mergeStep] at hc₂
  split at hc₂
  · next q hfind =>
    split at hc₂
    · next d hget =>
      dsimp only at hc₂
      by_cases hpq : p = q
      · subst hpq
        rw [get?_updNth_eq, hc] at hc₂
        simp only [Option.map_some'] at hc₂
        injection hc₂ with hc₂
        rw [← hc₂, applyMerge_aliases_none σS σV e c he]
        simp only [Option.getD_some]
        exact List.prefix_append _ _
      · rw [get?_updNth_ne _ _ _ _ hpq, hc] at hc₂
        injection hc₂ with hc₂
        rw [hc₂]
    · next hget =>
      rw [hc] at hc₂
      injection hc₂ with hc₂
      rw [hc₂]
  · next hfind =>
    dsimp only at hc₂
    have hp : p < st.canons.length := (List.get?_eq_some.mp hc).1
    rw [List.get?_append hp, hc] at hc₂
    injection hc₂ with hc₂
    rw [hc₂]

/-- C5 (amended): when no input record carries a pre-existing `aliases`
field, every canonical entity's alias list is an append-only, duplicate-free
audit trail: entries are raw names of input entities, each appears at most
once, the canonical display name never appears, and each processing step
only ever extends a canonical's alias list at its end (the old list is a
prefix of the new one).  When an input record does carry aliases, the
list-valued attribute union `list({*xs, *ys})` rebuilds the alias list as a
set, which neither preserves duplicates nor guarantees order (see
`mergeEntities_alias_set_union_cx`). -/
theorem mergeEntities_alias_audit
    (σS : List Str → List Str → List Str) (σV : List PyVal → List PyVal → List PyVal)
    (t : ℚ) (ents : List Entity)
    (hal : ∀ e ∈ ents, e.aliases = none) :
    (∀ c ∈ (mergeEntities σS σV ents t).1,
      (c.aliases.getD []).Nodup ∧ c.name ∉ c.aliases.getD [] ∧
      ∀ a ∈ c.aliases.getD [], ∃ e ∈ ents, a = e.name) ∧
    (∀ (k p : Nat) (c c₂ : Entity),
      ((ents.take k).foldl (mergeStep σS σV t) ⟨[], fun _ => none⟩).canons.get? p = some c →
      ((ents.take (k + 1)).foldl (mergeStep σS σV t) ⟨[], fun _ => none⟩).canons.get? p = some c₂ →
      (c.aliases.getD []) <+: (c₂.aliases.getD [])) := by
  constructor
  · intro c hc
    have hfold := mergeFold_aliasAudit σS σV t (ents.map Entity.name) ents
      ⟨[], fun _ => none⟩ hal (fun e hx => List.mem_map_of_mem Entity.name hx)
      (by intro x hx; simp at hx)
    obtain ⟨hnd, hnm, hsub⟩ := hfold c hc
    refine ⟨hnd, hnm, ?_⟩
    intro a ha
    obtain ⟨e, hme, hna⟩ := List.mem_map.mp (hsub a ha)
    exact ⟨e, hme, hna.symm⟩
  · intro k p c c₂ hc hc₂
    by_cases hk : k < ents.length
    · have htake : ents.take (k + 1) = ents.take k ++ [ents.get ⟨k, hk⟩] := by
        rw [List.take_succ]
        congr 1
        rw [List.getElem?_eq_getElem hk]
        simp [List.get_eq_getElem]
      rw [htake, List.foldl_append, List.foldl_cons, List.foldl_nil] at hc₂
      exact mergeStep_alias_prefix σS σV t _ _ (hal _ (List.get_mem ents k hk)) p c c₂ hc hc₂
    · have htk : ents.take k = ents := List.take_of_length_le (by omega)
      have htk1 : ents.take (k + 1) = ents := List.take_of_length_le (by omega)
      rw [htk] at hc
      rw [htk1] at hc₂
      rw [hc] at hc₂
      injection hc₂ with hc₂
      rw [hc₂]

def entsC5w : List Entity :=
  [{ id := "1".toList, name := "Dr Watson".toList },
   { id := "2".toList, name := "watson".toList },
   { id := "3".toList, name := "Watson".toList }]

theorem mergeEntities_alias_audit_witness :
    (∀ e ∈ entsC5w, e.aliases = none) ∧
    ((∀ c ∈ (mergeEntities unionFirst unionFirst entsC5w ((4 : ℚ) / 5)).1,
      (c.aliases.getD []).Nodup ∧ c.name ∉ c.aliases.getD [] ∧
      ∀ a ∈ c.aliases.getD [], ∃ e ∈ entsC5w, a = e.name) ∧
    (∀ (k p : Nat) (c c₂ : Entity),
      ((entsC5w.take k).foldl (mergeStep unionFirst unionFirst ((4 : ℚ) / 5))
        ⟨[], fun _ => none⟩).canons.get? p = some c →
      ((entsC5w.take (k + 1)).foldl (mergeStep unionFirst unionFirst ((4 : ℚ) / 5))
        ⟨[], fun _ => none⟩).canons.get? p = some c₂ →
      (c.aliases.getD []) <+: (c₂.aliases.getD []))) :=
  ⟨by decide,
    mergeEntities_alias_audit unionFirst unionFirst ((4 : ℚ) / 5) entsC5w (by decide)⟩

def entsC5c : List Entity :=
  [{ id := "1".toList, name := "b".toList,
     aliases := some ["X".toList, "X".toList] },
   { id := "2".toList, name := "B".toList, aliases := some ["Y".toList] }]

/-- C5 (counterexample): with input records carrying `aliases`, a merge step
is neither append-only nor duplicate-preserving.  The canonical created from
`{"name": "b", "aliases": ["X", "X"]}` starts with aliases `["X", "X"]`
(the deep copy keeps them); merging `{"name": "B", "aliases": ["Y"]}` (an
exact match on the normalized name) first appends the raw name `"B"` and
then replaces the list by `list({*["X","X","B"], *["Y"]})` — a set union
that drops the duplicate `"X"` (under every enumeration order) and is shown
here under the first-occurrence enumeration: the old list `["X", "X"]` is
not a prefix of the new list `["X", "B", "Y"]`. -/
theorem mergeEntities_alias_set_union_cx :
    ((((entsC5c.take 1).foldl (mergeStep unionFirst unionFirst ((4 : ℚ) / 5))
        ⟨[], fun _ => none⟩).canons.get? 0).map (fun c => c.aliases.getD [])
      = some ["X".toList, "X".toList]) ∧
    ((((entsC5c.take 2).foldl (mergeStep unionFirst unionFirst ((4 : ℚ) / 5))
        ⟨[], fun _ => none⟩).canons.get? 0).map (fun c => c.aliases.getD [])
      = some ["X".toList, "B".toList, "Y".toList]) ∧
    ¬ (["X".toList, "X".toList] <+: ["X".toList, "B".toList, "Y".toList]) := by
  refine ⟨by decide, by decide, ?_⟩
  rintro ⟨ts, hts⟩
  simp at hts
